import Mathlib

/-!
Shallow embedding of `src/project/otsu.py`: Otsu threshold selection on a
256-bin histogram (`threshold`), the per-block variant (`segmented_threshold`)
and the sliding-window variant (`sliding_window_threshold`).

Images are 2-D arrays of integer intensity samples, modelled as lists of rows.
The source's float arithmetic on probabilities is modelled exactly by ℚ;
numpy integer arrays are modelled by ℕ/ℤ cells, with the uint8 wrap-around of
`np.full_like` made explicit where a claim is about it.
-/

namespace Otsu

/-- A grayscale image: a 2-D array of integer intensity samples, row-major. -/
abbrev Image := List (List ℕ)

/-- Error taxonomy of the spec: `invalidArgument` for the guard clauses
(`raise ValueError(...)` in the source) and `invalidInput` for a region with
zero samples. -/
inductive OtsuError where
  | invalidInput : OtsuError
  | invalidArgument : OtsuError
  deriving DecidableEq

/-- All samples of the image in row-major order. -/
def pixels (image : Image) : List ℕ := image.flatten

/-- image.size: the total number of samples. -/
def numPixels (image : Image) : ℕ := (pixels image).length

/-- image.shape[1]: the length (number of columns) of the 2-D array. -/
def imageWidth (image : Image) : ℕ := (image.headD []).length

/-- A well-formed 2-D array: every row has the same length `w`. -/
def Rectangular (image : Image) (w : ℕ) : Prop := ∀ row ∈ image, row.length = w

instance (image : Image) (w : ℕ) : Decidable (Rectangular image w) := by
  unfold Rectangular
  infer_instance

/-- The 256-bin intensity histogram: bin `v` counts the samples equal to `v`. -/
def histogramOf (image : Image) : List ℕ :=
  (List.range 256).map (fun v => (pixels image).countP (fun p => p == v))

/-- Modelled from the spec: HistogramBuilder. The source builds the histogram
with `cv2.calcHist`, an external library call whose code is not in this
repository; per the spec it yields `counts[v] = number of samples equal to v`
for `v = 0..255` and fails with `InvalidInput` when the region has zero
samples. -/
def calcHist (image : Image) : Except OtsuError (List ℕ) :=
  if numPixels image = 0 then Except.error OtsuError.invalidInput
  else Except.ok (histogramOf image)

/-- gray_level_probabilities: each bin count divided by image.size. -/
def grayLevelProbabilities (hist : List ℕ) (numPx : ℕ) : List ℚ :=
  hist.map (fun (c : ℕ) => (c : ℚ) / (numPx : ℚ))

/-- sum(f(i, x) for i, x in enumerate(l)) with the enumeration starting at `k`. -/
def enumFromSum (f : ℕ → ℚ → ℚ) : ℕ → List ℚ → ℚ
  | _, [] => 0
  | k, p :: rest => f k p + enumFromSum f (k + 1) rest

/-- sum(f(gray_level, probability) for gray_level, probability in enumerate(l)). -/
def enumSum (f : ℕ → ℚ → ℚ) (l : List ℚ) : ℚ := enumFromSum f 0 l

/-- lower_group_probability at candidate t: sum(probs[:t+1]). -/
def lowerGroupProbability (probs : List ℚ) (t : ℕ) : ℚ := (probs.take (t + 1)).sum

/-- upper_group_probability at candidate t: sum(probs[t+1:]). -/
def upperGroupProbability (probs : List ℚ) (t : ℕ) : ℚ := (probs.drop (t + 1)).sum

/-- lower_group_mean at candidate t. -/
def lowerGroupMean (probs : List ℚ) (t : ℕ) : ℚ :=
  enumSum (fun g p => (g : ℚ) * p) (probs.take (t + 1)) / lowerGroupProbability probs t

/-- upper_group_mean at candidate t. The source enumerates the slice
`probs[t+1:]` from 0, so the gray levels here are shifted down by t+1 relative
to their true values; the shift cancels in the variance. -/
def upperGroupMean (probs : List ℚ) (t : ℕ) : ℚ :=
  enumSum (fun g p => (g : ℚ) * p) (probs.drop (t + 1)) / upperGroupProbability probs t

/-- lower_group_variance at candidate t. -/
def lowerGroupVariance (probs : List ℚ) (t : ℕ) : ℚ :=
  enumSum (fun g p => ((g : ℚ) - lowerGroupMean probs t) ^ 2 * p) (probs.take (t + 1)) /
    lowerGroupProbability probs t

/-- upper_group_variance at candidate t, with the same index shift as
`upperGroupMean`. -/
def upperGroupVariance (probs : List ℚ) (t : ℕ) : ℚ :=
  enumSum (fun g p => ((g : ℚ) - upperGroupMean probs t) ^ 2 * p) (probs.drop (t + 1)) /
    upperGroupProbability probs t

/-- intraclass_variance at candidate t, exactly as the source computes it. -/
def intraclassVariance (probs : List ℚ) (t : ℕ) : ℚ :=
  lowerGroupProbability probs t * lowerGroupVariance probs t +
    upperGroupProbability probs t * upperGroupVariance probs t

/-- A candidate the scan skips: a degenerate split with an empty class. -/
def skippedCandidate (probs : List ℚ) (t : ℕ) : Prop :=
  lowerGroupProbability probs t = 0 ∨ upperGroupProbability probs t = 0

/-- The body of the selection loop: the accumulator holds best_threshold and
min_intraclass_variance, with `none` standing for the initial float('inf'). -/
def otsuStep (probs : List ℚ) (acc : ℤ × Option ℚ) (t : ℕ) : ℤ × Option ℚ :=
  if lowerGroupProbability probs t = 0 ∨ upperGroupProbability probs t = 0 then acc
  else
    match acc with
    | (_, none) => ((t : ℤ), some (intraclassVariance probs t))
    | (best, some m) =>
      if intraclassVariance probs t < m then ((t : ℤ), some (intraclassVariance probs t))
      else (best, some m)

/-- The selection scan of `threshold`: best_threshold after the loop over
range(len(histogram)), starting from -1 and float('inf'). -/
def selectLevel (probs : List ℚ) : ℤ :=
  ((List.range probs.length).foldl (otsuStep probs) (-1, none)).1

/-- np.full_like(image, fill_value) for an integer-valued mask. -/
def fullLike (image : Image) (z : ℤ) : List (List ℤ) :=
  image.map (fun row => row.map (fun _ => z))

/-- The probabilities `threshold` derives from an image. -/
def imageProbs (image : Image) : List ℚ :=
  grayLevelProbabilities (histogramOf image) (numPixels image)

/-- Otsu's algorithm done the standard way (global threshold): the mask is
np.full_like(image, best_threshold). -/
def threshold (image : Image) : Except OtsuError (List (List ℤ)) := do
  let hist ← calcHist image
  let probs := grayLevelProbabilities hist (numPixels image)
  Except.ok (fullLike image (selectLevel probs))

/-- Casting an ℤ fill value into an unsigned 8-bit cell, as np.full_like does
when the model array's dtype is uint8: C-style wrap-around, the value mod 2^8. -/
def toUInt8Cell (z : ℤ) : ℕ := (z % (256 : ℤ)).toNat

/-- `threshold` as observed on an image whose element type is uint8: the
output of np.full_like inherits the dtype, so every cell holds the fill value
reduced mod 2^8. -/
def thresholdU8 (image : Image) : Except OtsuError (List (List ℕ)) := do
  let hist ← calcHist image
  let probs := grayLevelProbabilities hist (numPixels image)
  Except.ok (image.map (fun row => row.map (fun _ => toUInt8Cell (selectLevel probs))))

/-- segment_height: image_height // num_vertical_segments + 1. -/
def segmentHeightOf (imageHeight numVerticalSegments : ℕ) : ℕ :=
  imageHeight / numVerticalSegments + 1

/-- segment_length: image_length // num_horizontal_segments + 1. -/
def segmentLengthOf (imageLength numHorizontalSegments : ℕ) : ℕ :=
  imageLength / numHorizontalSegments + 1

/-- Python's range(0, stop, step) for a positive step and a stop that may be
negative (as in the sliding-window loop bounds). -/
def pythonRange (stop : ℤ) (step : ℕ) : List ℕ :=
  (List.range (if stop ≤ 0 then 0 else (stop.toNat + step - 1) / step)).map (fun k => k * step)

/-- image[r0 : r0 + nr, c0 : c0 + nc], with numpy's clipping at the array
bounds. -/
def slice2d (image : Image) (r0 nr c0 nc : ℕ) : Image :=
  ((image.drop r0).take nr).map (fun row => (row.drop c0).take nc)

/-- np.zeros_like(image) as an integer mask. -/
def zerosLikeInt (image : Image) : List (List ℤ) :=
  image.map (fun row => row.map (fun _ => (0 : ℤ)))

/-- np.zeros_like(image, dtype=np.float64), modelled over ℚ. -/
def zerosLikeRat (image : Image) : List (List ℚ) :=
  image.map (fun row => row.map (fun _ => (0 : ℚ)))

/-- np.zeros_like(image) used as the contribution-count accumulator
(num_repetitions); it inherits the image's fixed-width integer dtype, whose
wrap-around lives in `incrementRegion`. -/
def zerosLikeNat (image : Image) : List (List ℕ) :=
  image.map (fun row => row.map (fun _ => (0 : ℕ)))

/-- mask[v0 : v0 + nr, h0 : h0 + nc] = block: the slice assignment writing one
block's mask (the written region is clipped to the mask's bounds, matching the
shape of `block`). -/
def writeBlock (mask : List (List ℤ)) (v0 h0 nr nc : ℕ) (block : List (List ℤ)) :
    List (List ℤ) :=
  mask.mapIdx (fun i row =>
    if v0 ≤ i ∧ i < v0 + nr then
      row.mapIdx (fun j x =>
        if h0 ≤ j ∧ j < h0 + nc then (block.getD (i - v0) []).getD (j - h0) x else x)
    else row)

/-- Otsu threshold done on segments of the image. -/
def segmented_threshold (image : Image)
    (numVerticalSegments numHorizontalSegments : ℕ) :
    Except OtsuError (List (List ℤ)) :=
  if numVerticalSegments < 1 then Except.error OtsuError.invalidArgument
  else if numHorizontalSegments < 1 then Except.error OtsuError.invalidArgument
  else
    let imageHeight := image.length
    let imageLength := imageWidth image
    let segmentHeight := segmentHeightOf imageHeight numVerticalSegments
    let segmentLength := segmentLengthOf imageLength numHorizontalSegments
    (pythonRange (imageHeight : ℤ) segmentHeight).foldlM
      (fun mask verticalOffset =>
        (pythonRange (imageLength : ℤ) segmentLength).foldlM
          (fun mask horizontalOffset => do
            let imageSegment :=
              slice2d image verticalOffset segmentHeight horizontalOffset segmentLength
            let segmentedMask ← threshold imageSegment
            Except.ok
              (writeBlock mask verticalOffset horizontalOffset segmentHeight segmentLength
                segmentedMask))
          mask)
      (zerosLikeInt image)

/-- np.mean of an integer mask, as exact rational arithmetic. -/
def matrixMean (m : List (List ℤ)) : ℚ :=
  ((m.flatten.map (fun (z : ℤ) => (z : ℚ))).sum) / (m.flatten.length : ℚ)

/-- threshold_mask[v0 : v0 + nr, h0 : h0 + nc] += q (a scalar broadcast over
the clipped region). -/
def addScalarRegion (s : List (List ℚ)) (v0 h0 nr nc : ℕ) (q : ℚ) : List (List ℚ) :=
  s.mapIdx (fun i row =>
    if v0 ≤ i ∧ i < v0 + nr then
      row.mapIdx (fun j x => if h0 ≤ j ∧ j < h0 + nc then x + q else x)
    else row)

/-- num_repetitions[v0 : v0 + nr, h0 : h0 + nc] += 1. The array comes from
np.zeros_like(image) and so inherits the image's fixed-width dtype — uint8 for
the 8-bit grayscale images this code consumes — so each cell increment wraps
around mod 2^8. -/
def incrementRegion (c : List (List ℕ)) (v0 h0 nr nc : ℕ) : List (List ℕ) :=
  c.mapIdx (fun i row =>
    if v0 ≤ i ∧ i < v0 + nr then
      row.mapIdx (fun j x => if h0 ≤ j ∧ j < h0 + nc then (x + 1) % 256 else x)
    else row)

/-- threshold_mask / num_repetitions, elementwise. -/
def divideMasks (s : List (List ℚ)) (c : List (List ℕ)) : List (List ℚ) :=
  List.zipWith (fun rs rc => List.zipWith (fun (a : ℚ) (b : ℕ) => a / (b : ℚ)) rs rc) s c

/-- Otsu threshold done by a sliding window over the image. -/
def sliding_window_threshold (image : Image)
    (windowHeight windowLength verticalStride horizontalStride : ℕ) :
    Except OtsuError (List (List ℚ)) :=
  if windowHeight < 1 then Except.error OtsuError.invalidArgument
  else if windowLength < 1 then Except.error OtsuError.invalidArgument
  else if verticalStride < 1 then Except.error OtsuError.invalidArgument
  else if horizontalStride < 1 then Except.error OtsuError.invalidArgument
  else do
    let imageHeight := image.length
    let imageLength := imageWidth image
    let acc ←
      (pythonRange ((imageHeight : ℤ) - windowHeight + verticalStride) verticalStride).foldlM
        (fun acc verticalOffset =>
          (pythonRange ((imageLength : ℤ) - windowLength + horizontalStride)
              horizontalStride).foldlM
            (fun acc horizontalOffset => do
              let window :=
                slice2d image verticalOffset windowHeight horizontalOffset windowLength
              let windowMask ← threshold window
              Except.ok
                (addScalarRegion acc.1 verticalOffset horizontalOffset windowHeight
                    windowLength (matrixMean windowMask),
                  incrementRegion acc.2 verticalOffset horizontalOffset windowHeight
                    windowLength))
            acc)
        (zerosLikeRat image, zerosLikeNat image)
    Except.ok (divideMasks acc.1 acc.2)

/-- The contribution-count array (num_repetitions) the sliding-window loop has
accumulated once the traversal is done: the same nested loop as
`sliding_window_threshold`, restricted to its `num_repetitions[...] += 1`
statement (wrapping mod 2^8 with the array's uint8 dtype), which does not
depend on the windows' pixel data. -/
def countMatrix (image : Image)
    (windowHeight windowLength verticalStride horizontalStride : ℕ) : List (List ℕ) :=
  (pythonRange ((image.length : ℤ) - windowHeight + verticalStride) verticalStride).foldl
    (fun c verticalOffset =>
      (pythonRange ((imageWidth image : ℤ) - windowLength + horizontalStride)
          horizontalStride).foldl
        (fun c horizontalOffset =>
          incrementRegion c verticalOffset horizontalOffset windowHeight windowLength)
        c)
    (zerosLikeNat image)

/-- Cell (i, j) of a ℕ-valued 2-D array. -/
def cellN (m : List (List ℕ)) (i j : ℕ) : ℕ := (m.getD i []).getD j 0

/-- The accumulator of the selection loop after the first `n` candidates. -/
def scanAcc (probs : List ℚ) (n : ℕ) : ℤ × Option ℚ :=
  (List.range n).foldl (otsuStep probs) (-1, none)

/-- Modelled from the spec's formulas (§4.2), for comparison with the code's
computation: the upper-class mean taken over the true gray levels t+1..255
(the code enumerates the slice from 0 instead). -/
def specUpperGroupMean (probs : List ℚ) (t : ℕ) : ℚ :=
  enumSum (fun g p => ((t : ℚ) + 1 + (g : ℚ)) * p) (probs.drop (t + 1)) /
    upperGroupProbability probs t

/-- Modelled from the spec's formulas (§4.2): the upper-class variance taken
over the true gray levels t+1..255. -/
def specUpperGroupVariance (probs : List ℚ) (t : ℕ) : ℚ :=
  enumSum (fun g p => (((t : ℚ) + 1 + (g : ℚ)) - specUpperGroupMean probs t) ^ 2 * p)
      (probs.drop (t + 1)) /
    upperGroupProbability probs t

/-- J(t) as the spec and the claims state it: P_lower·var_lower +
P_upper·var_upper with the class variances over the true gray levels. -/
def specIntraclassVariance (probs : List ℚ) (t : ℕ) : ℚ :=
  lowerGroupProbability probs t * lowerGroupVariance probs t +
    upperGroupProbability probs t * specUpperGroupVariance probs t

/-- An integer mask converted cellwise to floating point (modelled over ℚ). -/
def ratMask (m : List (List ℤ)) : List (List ℚ) :=
  m.map (fun row => row.map (fun (z : ℤ) => (z : ℚ)))

/-- The per-level probability of the two-value example image [[10, 200]]
(half the samples at 10, half at 200), as `threshold` computes it. -/
def twoValProb (u : ℕ) : ℚ :=
  (((pixels [[10, 200]]).countP (fun p => p == u) : ℕ) : ℚ) /
    ((numPixels [[10, 200]] : ℕ) : ℚ)

/-! ## Basic shape lemmas -/

theorem length_histogramOf (image : Image) : (histogramOf image).length = 256 := by
  simp [histogramOf]

theorem length_imageProbs (image : Image) : (imageProbs image).length = 256 := by
  unfold imageProbs grayLevelProbabilities
  rw [List.length_map, length_histogramOf]

/-! ## The selection scan: stepping lemmas -/

theorem selectLevel_eq_scanAcc (probs : List ℚ) :
    selectLevel probs = (scanAcc probs probs.length).1 := rfl

theorem scanAcc_succ (probs : List ℚ) (n : ℕ) :
    scanAcc probs (n + 1) = otsuStep probs (scanAcc probs n) n := by
  unfold scanAcc
  rw [List.range_succ, List.foldl_append, List.foldl_cons, List.foldl_nil]

theorem otsuStep_skip (probs : List ℚ) (acc : ℤ × Option ℚ) (t : ℕ)
    (h : skippedCandidate probs t) : otsuStep probs acc t = acc := by
  have h' : lowerGroupProbability probs t = 0 ∨ upperGroupProbability probs t = 0 := h
  unfold otsuStep
  rw [if_pos h']

theorem otsuStep_none (probs : List ℚ) (z : ℤ) (t : ℕ)
    (h : ¬skippedCandidate probs t) :
    otsuStep probs (z, none) t = ((t : ℤ), some (intraclassVariance probs t)) := by
  have h' : ¬(lowerGroupProbability probs t = 0 ∨ upperGroupProbability probs t = 0) := h
  unfold otsuStep
  rw [if_neg h']

theorem otsuStep_some_lt (probs : List ℚ) (b : ℤ) (m : ℚ) (t : ℕ)
    (h : ¬skippedCandidate probs t) (hlt : intraclassVariance probs t < m) :
    otsuStep probs (b, some m) t = ((t : ℤ), some (intraclassVariance probs t)) := by
  have h' : ¬(lowerGroupProbability probs t = 0 ∨ upperGroupProbability probs t = 0) := h
  unfold otsuStep
  rw [if_neg h']
  simp only [if_pos hlt]

theorem otsuStep_some_ge (probs : List ℚ) (b : ℤ) (m : ℚ) (t : ℕ)
    (h : ¬skippedCandidate probs t) (hge : ¬intraclassVariance probs t < m) :
    otsuStep probs (b, some m) t = (b, some m) := by
  have h' : ¬(lowerGroupProbability probs t = 0 ∨ upperGroupProbability probs t = 0) := h
  unfold otsuStep
  rw [if_neg h']
  simp only [if_neg hge]

/-- The loop invariant of the selection scan: after the first n candidates the
accumulator is still the initial (-1, inf) exactly when every candidate so far
was skipped; otherwise it holds the first candidate attaining the minimal
intraclass variance among the non-skipped candidates seen so far. -/
theorem scanAcc_spec (probs : List ℚ) (n : ℕ) :
    (scanAcc probs n = (-1, none) ∧ ∀ t, t < n → skippedCandidate probs t) ∨
    (∃ (b : ℕ) (m : ℚ), scanAcc probs n = ((b : ℤ), some m) ∧ b < n ∧ ¬skippedCandidate probs b ∧
      m = intraclassVariance probs b ∧
      (∀ t, t < n → ¬skippedCandidate probs t → m ≤ intraclassVariance probs t) ∧
      (∀ t, t < b → ¬skippedCandidate probs t → m < intraclassVariance probs t)) := by
  induction n with
  | zero =>
    left
    exact ⟨rfl, fun t ht => absurd ht (Nat.not_lt_zero t)⟩
  | succ n ih =>
    rw [scanAcc_succ]
    by_cases hsk : skippedCandidate probs n
    · rcases ih with ⟨h1, h2⟩ | ⟨b, m, hacc, hb, hnsk, hm, hmin, hstrict⟩
      · left
        refine ⟨?_, fun t ht => ?_⟩
        · rw [h1, otsuStep_skip probs _ n hsk]
        · rcases Nat.lt_succ_iff_lt_or_eq.mp ht with h | h
          · exact h2 t h
          · exact h ▸ hsk
      · right
        refine ⟨b, m, ?_, Nat.lt_succ_of_lt hb, hnsk, hm, fun t ht hn => ?_, hstrict⟩
        · rw [hacc, otsuStep_skip probs _ n hsk]
        · rcases Nat.lt_succ_iff_lt_or_eq.mp ht with h | h
          · exact hmin t h hn
          · exact absurd (h ▸ hsk) hn
    · rcases ih with ⟨h1, h2⟩ | ⟨b, m, hacc, hb, hnsk, hm, hmin, hstrict⟩
      · right
        refine ⟨n, intraclassVariance probs n, ?_, Nat.lt_succ_self n, hsk, rfl,
          fun t ht hn => ?_, fun t ht hn => ?_⟩
        · rw [h1, otsuStep_none probs _ n hsk]
        · rcases Nat.lt_succ_iff_lt_or_eq.mp ht with h | h
          · exact absurd (h2 t h) hn
          · exact le_of_eq (by rw [h])
        · exact absurd (h2 t ht) hn
      · right
        by_cases hlt : intraclassVariance probs n < m
        · refine ⟨n, intraclassVariance probs n, ?_, Nat.lt_succ_self n, hsk, rfl,
            fun t ht hn => ?_, fun t ht hn => ?_⟩
          · rw [hacc, otsuStep_some_lt probs _ m n hsk hlt]
          · rcases Nat.lt_succ_iff_lt_or_eq.mp ht with h | h
            · exact le_of_lt (lt_of_lt_of_le hlt (hmin t h hn))
            · exact le_of_eq (by rw [h])
          · exact lt_of_lt_of_le hlt (hmin t ht hn)
        · refine ⟨b, m, ?_, Nat.lt_succ_of_lt hb, hnsk, hm, fun t ht hn => ?_, hstrict⟩
          · rw [hacc, otsuStep_some_ge probs _ m n hsk hlt]
          · rcases Nat.lt_succ_iff_lt_or_eq.mp ht with h | h
            · exact hmin t h hn
            · exact h ▸ le_of_not_lt hlt

/-! ## The index shift in the upper class cancels in the variance -/

theorem enumFromSum_affine (a : ℚ) (l : List ℚ) (k : ℕ) :
    enumFromSum (fun g p => (a + (g : ℚ)) * p) k l =
      enumFromSum (fun g p => (g : ℚ) * p) k l + a * l.sum := by
  induction l generalizing k with
  | nil => simp [enumFromSum]
  | cons p rest ih =>
    simp only [enumFromSum, List.sum_cons, ih (k + 1)]
    ring

theorem specUpperGroupMean_eq (probs : List ℚ) (t : ℕ)
    (h : upperGroupProbability probs t ≠ 0) :
    specUpperGroupMean probs t = upperGroupMean probs t + ((t : ℚ) + 1) := by
  unfold specUpperGroupMean upperGroupMean enumSum
  rw [enumFromSum_affine ((t : ℚ) + 1) (probs.drop (t + 1)) 0]
  have hs : (probs.drop (t + 1)).sum = upperGroupProbability probs t := rfl
  rw [hs]
  field_simp

theorem specUpperGroupVariance_eq (probs : List ℚ) (t : ℕ)
    (h : upperGroupProbability probs t ≠ 0) :
    specUpperGroupVariance probs t = upperGroupVariance probs t := by
  unfold specUpperGroupVariance upperGroupVariance
  rw [specUpperGroupMean_eq probs t h]
  have hf : (fun (g : ℕ) (p : ℚ) =>
        (((t : ℚ) + 1 + (g : ℚ)) - (upperGroupMean probs t + ((t : ℚ) + 1))) ^ 2 * p) =
      fun (g : ℕ) (p : ℚ) => ((g : ℚ) - upperGroupMean probs t) ^ 2 * p := by
    funext g p
    ring
  rw [hf]

/-- At every non-skipped candidate, the source's intraclass variance equals
the spec's J(t) (the shifted upper-class enumeration cancels). -/
theorem specIntraclassVariance_eq (probs : List ℚ) (t : ℕ)
    (h : ¬skippedCandidate probs t) :
    specIntraclassVariance probs t = intraclassVariance probs t := by
  have hu : upperGroupProbability probs t ≠ 0 := by
    intro hz
    exact h (Or.inr hz)
  unfold specIntraclassVariance intraclassVariance
  rw [specUpperGroupVariance_eq probs t hu]

/-- When every candidate below `probs.length` is skipped, the scan keeps the
initial sentinel -1. -/
theorem selectLevel_eq_neg_one (probs : List ℚ)
    (h : ∀ t, t < probs.length → skippedCandidate probs t) : selectLevel probs = -1 := by
  rw [selectLevel_eq_scanAcc]
  rcases scanAcc_spec probs probs.length with ⟨h1, _⟩ | ⟨b, m, hacc, hb, hnsk, _⟩
  · rw [h1]
  · exact absurd (h b hb) hnsk

/-! ## Probabilities versus histogram counts -/

theorem sum_map_ratCast_div (l : List ℕ) (n : ℕ) :
    (l.map (fun (c : ℕ) => (c : ℚ) / (n : ℚ))).sum = ((l.sum : ℕ) : ℚ) / (n : ℚ) := by
  induction l with
  | nil => simp
  | cons c rest ih =>
    simp only [List.map_cons, List.sum_cons, ih, Nat.cast_add, add_div]

theorem lowerGroupProbability_counts (hist : List ℕ) (n t : ℕ) :
    lowerGroupProbability (grayLevelProbabilities hist n) t =
      (((hist.take (t + 1)).sum : ℕ) : ℚ) / (n : ℚ) := by
  unfold lowerGroupProbability grayLevelProbabilities
  rw [← List.map_take, sum_map_ratCast_div]

theorem upperGroupProbability_counts (hist : List ℕ) (n t : ℕ) :
    upperGroupProbability (grayLevelProbabilities hist n) t =
      (((hist.drop (t + 1)).sum : ℕ) : ℚ) / (n : ℚ) := by
  unfold upperGroupProbability grayLevelProbabilities
  rw [← List.map_drop, sum_map_ratCast_div]

theorem skippedCandidate_of_counts (hist : List ℕ) (n t : ℕ)
    (h : (hist.take (t + 1)).sum = 0 ∨ (hist.drop (t + 1)).sum = 0) :
    skippedCandidate (grayLevelProbabilities hist n) t := by
  unfold skippedCandidate
  rw [lowerGroupProbability_counts, upperGroupProbability_counts]
  rcases h with h | h
  · left
    rw [h]
    simp
  · right
    rw [h]
    simp

theorem skippedCandidate_iff_counts (hist : List ℕ) (n t : ℕ) (hn : n ≠ 0) :
    skippedCandidate (grayLevelProbabilities hist n) t ↔
      ((hist.take (t + 1)).sum = 0 ∨ (hist.drop (t + 1)).sum = 0) := by
  constructor
  · intro h
    have hn' : (n : ℚ) ≠ 0 := Nat.cast_ne_zero.mpr hn
    unfold skippedCandidate at h
    rw [lowerGroupProbability_counts, upperGroupProbability_counts] at h
    rcases h with h | h
    · left
      have := (div_eq_zero_iff.mp h).resolve_right hn'
      exact_mod_cast this
    · right
      have := (div_eq_zero_iff.mp h).resolve_right hn'
      exact_mod_cast this
  · exact skippedCandidate_of_counts hist n t

/-! ## C1: the scan returns the first minimizer of J among valid candidates -/

/-- C1: for every probability list holding at least one non-degenerate
candidate, the selection scan inside `threshold` returns the smallest
candidate minimizing the spec's intraclass variance J(t) over the non-skipped
candidates; a skipped candidate is never selected, and ties go to the first
(smallest) minimizer found scanning ascending. -/
theorem otsu_selects_first_argmin (probs : List ℚ)
    (h : ∃ t, t < probs.length ∧ ¬skippedCandidate probs t) :
    ∃ b : ℕ, selectLevel probs = (b : ℤ) ∧ b < probs.length ∧
      ¬skippedCandidate probs b ∧
      (∀ t, t < probs.length → ¬skippedCandidate probs t →
        specIntraclassVariance probs b ≤ specIntraclassVariance probs t) ∧
      (∀ t, t < probs.length → ¬skippedCandidate probs t →
        specIntraclassVariance probs t = specIntraclassVariance probs b → b ≤ t) := by
  rcases scanAcc_spec probs probs.length with ⟨_, h2⟩ |
    ⟨b, m, hacc, hb, hnsk, hm, hmin, hstrict⟩
  · obtain ⟨t, ht, hn⟩ := h
    exact absurd (h2 t ht) hn
  · refine ⟨b, ?_, hb, hnsk, fun t ht hn => ?_, fun t ht hn heq => ?_⟩
    · rw [selectLevel_eq_scanAcc, hacc]
    · rw [specIntraclassVariance_eq probs b hnsk, specIntraclassVariance_eq probs t hn]
      exact hm ▸ hmin t ht hn
    · by_contra hbt
      push_neg at hbt
      have hlt := hstrict t hbt hn
      rw [specIntraclassVariance_eq probs t hn, specIntraclassVariance_eq probs b hnsk]
        at heq
      rw [hm, heq] at hlt
      exact lt_irrefl _ hlt

set_option maxRecDepth 8000 in
theorem otsu_selects_first_argmin_witness :
    (∃ t, t < (imageProbs [[0, 1]]).length ∧ ¬skippedCandidate (imageProbs [[0, 1]]) t) ∧
      (∃ b : ℕ, selectLevel (imageProbs [[0, 1]]) = (b : ℤ) ∧
        b < (imageProbs [[0, 1]]).length ∧ ¬skippedCandidate (imageProbs [[0, 1]]) b ∧
        (∀ t, t < (imageProbs [[0, 1]]).length → ¬skippedCandidate (imageProbs [[0, 1]]) t →
          specIntraclassVariance (imageProbs [[0, 1]]) b ≤
            specIntraclassVariance (imageProbs [[0, 1]]) t) ∧
        (∀ t, t < (imageProbs [[0, 1]]).length → ¬skippedCandidate (imageProbs [[0, 1]]) t →
          specIntraclassVariance (imageProbs [[0, 1]]) t =
              specIntraclassVariance (imageProbs [[0, 1]]) b → b ≤ t)) := by
  have hyp : ∃ t, t < (imageProbs [[0, 1]]).length ∧
      ¬skippedCandidate (imageProbs [[0, 1]]) t := by
    refine ⟨0, ?_, ?_⟩
    · rw [length_imageProbs]
      decide
    · show ¬skippedCandidate
        (grayLevelProbabilities (histogramOf [[0, 1]]) (numPixels [[0, 1]])) 0
      rw [skippedCandidate_iff_counts _ _ _ (by decide)]
      decide
  exact ⟨hyp, otsu_selects_first_argmin _ hyp⟩

/-! ## C2 and C9: the degenerate single-valued image -/

theorem histogram_constant_zero (image : Image) (v : ℕ)
    (hconst : ∀ p ∈ pixels image, p = v) (u : ℕ) (hu : u ≠ v) :
    (pixels image).countP (fun p => p == u) = 0 := by
  rw [List.countP_eq_zero]
  intro a ha
  rw [hconst a ha]
  simp only [beq_iff_eq]
  exact fun h => hu (h ▸ rfl)

theorem sum_take_histogram_zero (image : Image) (v t : ℕ)
    (hconst : ∀ p ∈ pixels image, p = v) (hvt : t < v) :
    ((histogramOf image).take (t + 1)).sum = 0 := by
  apply List.sum_eq_zero
  intro x hx
  rw [histogramOf, ← List.map_take] at hx
  obtain ⟨u, hu, rfl⟩ := List.mem_map.mp hx
  rw [List.take_range] at hu
  have hub : u < t + 1 := lt_of_lt_of_le (List.mem_range.mp hu) (min_le_left _ _)
  exact histogram_constant_zero image v hconst u (by omega)

theorem sum_drop_histogram_zero (image : Image) (v t : ℕ)
    (hconst : ∀ p ∈ pixels image, p = v) (hvt : v ≤ t) :
    ((histogramOf image).drop (t + 1)).sum = 0 := by
  apply List.sum_eq_zero
  intro x hx
  rw [histogramOf, ← List.map_drop] at hx
  obtain ⟨u, hu, rfl⟩ := List.mem_map.mp hx
  obtain ⟨k, hk, hke⟩ := List.mem_iff_getElem.mp hu
  rw [List.getElem_drop, List.getElem_range] at hke
  exact histogram_constant_zero image v hconst u (by omega)

/-- Every candidate is skipped on a single-valued image: each threshold
candidate has an empty lower class or an empty upper class. -/
theorem skipped_of_constant (image : Image) (v : ℕ)
    (hconst : ∀ p ∈ pixels image, p = v) (t : ℕ) :
    skippedCandidate (imageProbs image) t := by
  show skippedCandidate
    (grayLevelProbabilities (histogramOf image) (numPixels image)) t
  apply skippedCandidate_of_counts
  rcases lt_or_le t v with h | h
  · exact Or.inl (sum_take_histogram_zero image v t hconst h)
  · exact Or.inr (sum_drop_histogram_zero image v t hconst h)

theorem threshold_ok (image : Image) (hne : numPixels image ≠ 0) :
    threshold image = Except.ok (fullLike image (selectLevel (imageProbs image))) := by
  unfold threshold calcHist
  rw [if_neg hne]
  rfl

theorem threshold_empty (image : Image) (he : numPixels image = 0) :
    threshold image = Except.error OtsuError.invalidInput := by
  unfold threshold calcHist
  rw [if_pos he]
  rfl

theorem thresholdU8_ok (image : Image) (hne : numPixels image ≠ 0) :
    thresholdU8 image = Except.ok
      (image.map (fun row => row.map (fun _ => toUInt8Cell (selectLevel (imageProbs image))))) := by
  unfold thresholdU8 calcHist
  rw [if_neg hne]
  rfl

/-- C2: on a non-empty image whose pixels all share the value v, every
candidate is skipped, the scan falls back to the sentinel level -1 (outside
the valid intensity range 0..255), and `threshold` fills every cell of the
returned mask with that sentinel. -/
theorem constant_image_threshold (image : Image) (v : ℕ)
    (hne : numPixels image ≠ 0) (hconst : ∀ p ∈ pixels image, p = v) :
    (∀ t, skippedCandidate (imageProbs image) t) ∧
      selectLevel (imageProbs image) = -1 ∧
      threshold image = Except.ok (fullLike image (-1)) := by
  have hskip : ∀ t, skippedCandidate (imageProbs image) t :=
    fun t => skipped_of_constant image v hconst t
  have hsel : selectLevel (imageProbs image) = -1 :=
    selectLevel_eq_neg_one _ (fun t _ => hskip t)
  refine ⟨hskip, hsel, ?_⟩
  rw [threshold_ok image hne, hsel]

theorem constant_image_threshold_witness :
    numPixels [[7, 7], [7, 7]] ≠ 0 ∧ (∀ p ∈ pixels [[7, 7], [7, 7]], p = 7) ∧
      ((∀ t, skippedCandidate (imageProbs [[7, 7], [7, 7]]) t) ∧
        selectLevel (imageProbs [[7, 7], [7, 7]]) = -1 ∧
        threshold [[7, 7], [7, 7]] = Except.ok [[-1, -1], [-1, -1]]) :=
  ⟨by decide, by decide, constant_image_threshold [[7, 7], [7, 7]] 7 (by decide) (by decide)⟩

/-- C9: on a uint8 image on which every candidate is skipped, the sentinel -1
is reduced mod 2^8 by the output dtype, so every cell of the mask reads 255
rather than -1. -/
theorem u8_sentinel_mask (image : Image)
    (hpix : ∀ p ∈ pixels image, p ≤ 255) (hne : numPixels image ≠ 0)
    (hskip : ∀ t, t < 256 → skippedCandidate (imageProbs image) t) :
    thresholdU8 image = Except.ok (image.map (fun row => row.map (fun _ => 255))) := by
  have hsel : selectLevel (imageProbs image) = -1 :=
    selectLevel_eq_neg_one _ (by rw [length_imageProbs]; exact hskip)
  have h255 : toUInt8Cell (-1) = 255 := by decide
  rw [thresholdU8_ok image hne]
  simp only [hsel, h255]

theorem u8_sentinel_mask_witness :
    (∀ p ∈ pixels [[9]], p ≤ 255) ∧ numPixels [[9]] ≠ 0 ∧
      (∀ t, t < 256 → skippedCandidate (imageProbs [[9]]) t) ∧
      thresholdU8 [[9]] = Except.ok [[255]] := by
  have hskip : ∀ t, t < 256 → skippedCandidate (imageProbs [[9]]) t :=
    fun t _ => skipped_of_constant [[9]] 9 (by decide) t
  exact ⟨by decide, by decide, hskip, u8_sentinel_mask [[9]] (by decide) (by decide) hskip⟩

/-! ## C3: the nominal block size is floor-division-plus-one, not the ceiling -/

/-- C3 counterexample: when the segment count divides the dimension (here 4
rows into 2 vertical segments) the source's block size 4 // 2 + 1 = 3 differs
from ceil(4 / 2) = 2. -/
theorem segment_size_ceil_cex :
    segmentHeightOf 4 2 = 3 ∧ segmentLengthOf 4 2 = 3 ∧ (4 + 2 - 1) / 2 = 2 ∧
      segmentHeightOf 4 2 ≠ (4 + 2 - 1) / 2 := by decide

/-- C3 amended: the nominal block size is dim // segs + 1, which equals
ceil(dim / segs) exactly when segs does not divide dim. -/
theorem segment_size_floor_plus_one (dim segs : ℕ) (hsegs : 1 ≤ segs) :
    segmentHeightOf dim segs = dim / segs + 1 ∧
      segmentLengthOf dim segs = dim / segs + 1 ∧
      (segmentHeightOf dim segs = (dim + segs - 1) / segs ↔ ¬segs ∣ dim) := by
  refine ⟨rfl, rfl, ?_⟩
  unfold segmentHeightOf
  have h0 : 0 < segs := hsegs
  have hd := Nat.div_add_mod dim segs
  have hm : dim % segs < segs := Nat.mod_lt dim h0
  by_cases hz : dim % segs = 0
  · have h1 : segs - 1 < segs := by omega
    have hsplit : dim + segs - 1 = segs * (dim / segs) + (segs - 1) := by omega
    rw [hsplit, Nat.mul_add_div h0, Nat.div_eq_of_lt h1]
    have hdvd : segs ∣ dim := Dvd.intro (dim / segs) (by omega)
    constructor
    · intro he
      exact absurd he (by omega)
    · intro hn
      exact absurd hdvd hn
  · have h1 : dim % segs - 1 < segs := by omega
    have hexp : segs * (dim / segs + 1) = segs * (dim / segs) + segs := by ring
    have hsplit : dim + segs - 1 = segs * (dim / segs + 1) + (dim % segs - 1) := by omega
    rw [hsplit, Nat.mul_add_div h0, Nat.div_eq_of_lt h1]
    have hndvd : ¬segs ∣ dim := by
      rintro ⟨c, rfl⟩
      exact hz (Nat.mul_mod_right segs c)
    constructor
    · intro _
      exact hndvd
    · intro _
      omega

theorem segment_size_floor_plus_one_witness :
    1 ≤ 2 ∧ (segmentHeightOf 5 2 = 5 / 2 + 1 ∧ segmentLengthOf 5 2 = 5 / 2 + 1 ∧
      (segmentHeightOf 5 2 = (5 + 2 - 1) / 2 ↔ ¬2 ∣ 5)) :=
  ⟨by decide, segment_size_floor_plus_one 5 2 (by decide)⟩

/-! ## pythonRange: membership and bounds -/

theorem mem_pythonRange_nat (s step : ℕ) (hstep : 0 < step) (o : ℕ) :
    o ∈ pythonRange (s : ℤ) step ↔ ∃ k, o = k * step ∧ k * step < s := by
  unfold pythonRange
  constructor
  · intro ho
    rcases List.mem_map.mp ho with ⟨k, hk, rfl⟩
    have hkN := List.mem_range.mp hk
    refine ⟨k, rfl, ?_⟩
    by_cases hs : (s : ℤ) ≤ 0
    · rw [if_pos hs] at hkN
      omega
    · rw [if_neg hs, Int.toNat_natCast] at hkN
      have hs1 : 1 ≤ s := by omega
      have hrw : s + step - 1 = (s - 1) + step := by omega
      rw [hrw, Nat.add_div_right _ hstep] at hkN
      have hk1 : k ≤ (s - 1) / step := by omega
      have := (Nat.le_div_iff_mul_le hstep).mp hk1
      omega
  · rintro ⟨k, rfl, hks⟩
    apply List.mem_map.mpr
    refine ⟨k, List.mem_range.mpr ?_, rfl⟩
    have hs1 : 1 ≤ s := by omega
    have hsZ : ¬((s : ℤ) ≤ 0) := by omega
    rw [if_neg hsZ, Int.toNat_natCast]
    have hrw : s + step - 1 = (s - 1) + step := by omega
    rw [hrw, Nat.add_div_right _ hstep]
    have hle : k * step ≤ s - 1 := by omega
    have := (Nat.le_div_iff_mul_le hstep).mpr hle
    omega

theorem pythonRange_lt_stop (s step : ℕ) (hstep : 0 < step) :
    ∀ o ∈ pythonRange (s : ℤ) step, o < s := by
  intro o ho
  obtain ⟨k, rfl, hk⟩ := (mem_pythonRange_nat s step hstep o).mp ho
  exact hk

/-- Each sample index below the stop is covered by exactly one offset of
range(0, stop, step) when the window equals the step. -/
theorem covering_offset_unique (H step : ℕ) (hstep : 0 < step) (i : ℕ) (hi : i < H) :
    ∃! o : ℕ, o ∈ pythonRange (H : ℤ) step ∧ o ≤ i ∧ i < o + step := by
  have hd := Nat.div_add_mod i step
  have hm : i % step < step := Nat.mod_lt i hstep
  refine ⟨(i / step) * step, ⟨?_, ?_, ?_⟩, ?_⟩
  · refine (mem_pythonRange_nat H step hstep _).mpr ⟨i / step, rfl, ?_⟩
    have := Nat.div_mul_le_self i step
    omega
  · exact Nat.div_mul_le_self i step
  · rw [Nat.mul_comm]
    omega
  · rintro o ⟨hoMem, hole, holt⟩
    obtain ⟨k, rfl, _⟩ := (mem_pythonRange_nat H step hstep o).mp hoMem
    have hsucc : (k + 1) * step = k * step + step := by ring
    have hdiv : i / step = k := Nat.div_eq_of_lt_le hole (by omega)
    rw [hdiv]

/-! ## C6: the blocks of segmented_threshold tile the image exactly once -/

/-- C6: with at least one segment in each direction, every block offset
starts inside the image (so each clipped block slice is non-empty and in
bounds), and every pixel of the image lies in exactly one block of the grid
traversed by `segmented_threshold`. -/
theorem block_partition (imageHeight imageLength nv nh : ℕ)
    (hnv : 1 ≤ nv) (hnh : 1 ≤ nh) (i j : ℕ)
    (hi : i < imageHeight) (hj : j < imageLength) :
    (∀ o ∈ pythonRange (imageHeight : ℤ) (segmentHeightOf imageHeight nv),
      o < imageHeight) ∧
    (∀ o ∈ pythonRange (imageLength : ℤ) (segmentLengthOf imageLength nh),
      o < imageLength) ∧
    ∃! p : ℕ × ℕ,
      p.1 ∈ pythonRange (imageHeight : ℤ) (segmentHeightOf imageHeight nv) ∧
      p.2 ∈ pythonRange (imageLength : ℤ) (segmentLengthOf imageLength nh) ∧
      p.1 ≤ i ∧ i < p.1 + segmentHeightOf imageHeight nv ∧
      p.2 ≤ j ∧ j < p.2 + segmentLengthOf imageLength nh := by
  have hsh : 0 < segmentHeightOf imageHeight nv := Nat.succ_pos _
  have hsl : 0 < segmentLengthOf imageLength nh := Nat.succ_pos _
  obtain ⟨ov, ⟨hovm, hovle, hovlt⟩, hovuniq⟩ :=
    covering_offset_unique imageHeight _ hsh i hi
  obtain ⟨oh, ⟨hohm, hohle, hohlt⟩, hohuniq⟩ :=
    covering_offset_unique imageLength _ hsl j hj
  refine ⟨pythonRange_lt_stop _ _ hsh, pythonRange_lt_stop _ _ hsl,
    ⟨(ov, oh), ⟨hovm, hohm, hovle, hovlt, hohle, hohlt⟩, ?_⟩⟩
  rintro ⟨a, b⟩ ⟨ham, hbm, hale, halt, hble, hblt⟩
  have h1 := hovuniq a ⟨ham, hale, halt⟩
  have h2 := hohuniq b ⟨hbm, hble, hblt⟩
  rw [h1, h2]

theorem block_partition_witness :
    (∀ o ∈ pythonRange ((3 : ℕ) : ℤ) (segmentHeightOf 3 2), o < 3) ∧
    (∀ o ∈ pythonRange ((5 : ℕ) : ℤ) (segmentLengthOf 5 2), o < 5) ∧
    ∃! p : ℕ × ℕ,
      p.1 ∈ pythonRange ((3 : ℕ) : ℤ) (segmentHeightOf 3 2) ∧
      p.2 ∈ pythonRange ((5 : ℕ) : ℤ) (segmentLengthOf 5 2) ∧
      p.1 ≤ 2 ∧ 2 < p.1 + segmentHeightOf 3 2 ∧
      p.2 ≤ 4 ∧ 4 < p.2 + segmentLengthOf 5 2 :=
  block_partition 3 5 2 2 (by decide) (by decide) 2 4 (by decide) (by decide)

/-! ## Structural helpers: shapes, slices, successful folds -/

theorem imageWidth_eq (image : Image) (w : ℕ) (hrect : Rectangular image w)
    (hne : image ≠ []) : imageWidth image = w := by
  unfold imageWidth
  cases image with
  | nil => exact absurd rfl hne
  | cons r rest => exact hrect r (List.mem_cons_self r rest)

theorem width_pos (image : Image) (w : ℕ) (hrect : Rectangular image w)
    (hne : numPixels image ≠ 0) : 0 < w := by
  by_contra h0
  have hall : ∀ row ∈ image, row = [] := by
    intro row hr
    have := hrect row hr
    exact List.length_eq_zero.mp (by omega)
  exact hne (by rw [numPixels, pixels, List.flatten_eq_nil_iff.mpr hall]; rfl)

theorem length_pos_of_numPixels (image : Image) (hne : numPixels image ≠ 0) :
    0 < image.length := by
  rcases Nat.eq_zero_or_pos image.length with h | h
  · have : image = [] := List.length_eq_zero.mp h
    subst this
    exact absurd rfl hne
  · exact h

theorem pythonRange_single (s step : ℕ) (h1 : 0 < s) (h2 : s ≤ step) :
    pythonRange (s : ℤ) step = [0] := by
  unfold pythonRange
  have hsZ : ¬((s : ℤ) ≤ 0) := by omega
  rw [if_neg hsZ, Int.toNat_natCast]
  have hdiv : (s + step - 1) / step = 1 :=
    Nat.div_eq_of_lt_le (by omega) (by omega)
  rw [hdiv]
  simp [List.range_succ]

theorem slice2d_all (image : Image) (w : ℕ) (hrect : Rectangular image w)
    (nr nc : ℕ) (hnr : image.length ≤ nr) (hnc : w ≤ nc) :
    slice2d image 0 nr 0 nc = image := by
  unfold slice2d
  rw [List.drop_zero, List.take_of_length_le hnr]
  have hrow : ∀ row ∈ image, (row.drop 0).take nc = row := by
    intro row hr
    rw [List.drop_zero, List.take_of_length_le (by rw [hrect row hr]; exact hnc)]
  calc image.map (fun row => (row.drop 0).take nc) = image.map id :=
        List.map_congr_left (fun a ha => hrow a ha)
    _ = image := List.map_id image

theorem numPixels_slice_pos (image : Image) (w : ℕ) (hrect : Rectangular image w)
    (r0 nr c0 nc : ℕ) (hr0 : r0 < image.length) (hnr : 0 < nr) (hc0 : c0 < w)
    (hnc : 0 < nc) : numPixels (slice2d image r0 nr c0 nc) ≠ 0 := by
  intro h0
  have hnil : pixels (slice2d image r0 nr c0 nc) = [] := List.length_eq_zero.mp h0
  rw [pixels, slice2d, List.flatten_eq_nil_iff] at hnil
  have hlen : 0 < ((image.drop r0).take nr).length := by
    rw [List.length_take, List.length_drop]
    omega
  have hmem0 : ((image.drop r0).take nr).get ⟨0, hlen⟩ ∈ (image.drop r0).take nr :=
    List.get_mem _ _ hlen
  have hrmem : ((image.drop r0).take nr).get ⟨0, hlen⟩ ∈ image :=
    List.mem_of_mem_drop (List.mem_of_mem_take hmem0)
  have hrl : (((image.drop r0).take nr).get ⟨0, hlen⟩).length = w := hrect _ hrmem
  have hsl : ((((image.drop r0).take nr).get ⟨0, hlen⟩).drop c0).take nc ∈
      ((image.drop r0).take nr).map (fun row => (row.drop c0).take nc) :=
    List.mem_map_of_mem _ hmem0
  have heq := hnil _ hsl
  have hlen2 : (((((image.drop r0).take nr).get ⟨0, hlen⟩).drop c0).take nc).length =
      min nc ((((image.drop r0).take nr).get ⟨0, hlen⟩).length - c0) := by
    rw [List.length_take, List.length_drop]
  rw [heq, hrl] at hlen2
  simp only [List.length_nil] at hlen2
  omega

theorem foldlM_ok {α β : Type} (f : β → α → Except OtsuError β) (l : List α)
    (h : ∀ a ∈ l, ∀ b : β, ∃ b', f b a = Except.ok b') :
    ∀ init : β, ∃ r, l.foldlM f init = Except.ok r := by
  induction l with
  | nil =>
    intro init
    exact ⟨init, rfl⟩
  | cons a rest ih =>
    intro init
    obtain ⟨b', hb'⟩ := h a (List.mem_cons_self a rest) init
    obtain ⟨r, hr⟩ := ih (fun x hx b => h x (List.mem_cons_of_mem a hx) b) b'
    refine ⟨r, ?_⟩
    rw [List.foldlM_cons, hb']
    exact hr

/-- Every block `segmented_threshold` visits is a non-empty sub-image, so the
whole traversal succeeds: the function returns a mask for every well-formed
image (empty images included — then the loops run zero times). -/
theorem segmented_threshold_ok (image : Image) (w : ℕ) (hrect : Rectangular image w)
    (nv nh : ℕ) (hnv : 1 ≤ nv) (hnh : 1 ≤ nh) :
    ∃ m, segmented_threshold image nv nh = Except.ok m := by
  unfold segmented_threshold
  rw [if_neg (by omega : ¬nv < 1), if_neg (by omega : ¬nh < 1)]
  apply foldlM_ok
  intro vo hvo mask
  apply foldlM_ok
  intro ho hho mask'
  have hvo' : vo < image.length :=
    pythonRange_lt_stop _ _ (Nat.succ_pos _) vo hvo
  have hho' : ho < imageWidth image :=
    pythonRange_lt_stop _ _ (Nat.succ_pos _) ho hho
  have hne : image ≠ [] := by
    intro h
    rw [h] at hvo'
    simp at hvo'
  have hwc : imageWidth image = w := imageWidth_eq image w hrect hne
  rw [hwc] at hho'
  obtain ⟨mth, hth⟩ : ∃ mth,
      threshold (slice2d image vo (segmentHeightOf image.length nv) ho
        (segmentLengthOf (imageWidth image) nh)) = Except.ok mth :=
    ⟨_, threshold_ok _ (numPixels_slice_pos image w hrect vo _ ho _ hvo'
      (Nat.succ_pos _) hho' (Nat.succ_pos _))⟩
  refine ⟨writeBlock mask' vo ho (segmentHeightOf image.length nv)
    (segmentLengthOf (imageWidth image) nh) mth, ?_⟩
  dsimp only
  rw [hth]
  rfl

/-! ## C5: how InvalidInput does and does not propagate -/

/-- C5 counterexample: `segmented_threshold` does not propagate InvalidInput
on an empty image (its loops run zero times and it returns an empty mask),
and `sliding_window_threshold` can fail with InvalidInput on a non-empty
image (a stride larger than the window makes an offset fall outside the
image, giving an empty window). -/
theorem invalid_input_propagation_cex :
    numPixels ([] : Image) = 0 ∧ segmented_threshold [] 1 1 = Except.ok [] ∧
      numPixels [[5], [7]] ≠ 0 ∧
      sliding_window_threshold [[5], [7]] 1 1 3 1 =
        Except.error OtsuError.invalidInput := by
  refine ⟨rfl, rfl, by decide, ?_⟩
  rfl

/-- C5 amended: `threshold` fails with InvalidInput exactly on empty images;
`segmented_threshold` never propagates that failure (it succeeds on every
well-formed image, running its loops zero times when a dimension is zero);
`sliding_window_threshold` can fail with InvalidInput even on a non-empty
image, when a window offset lands beyond the image edge. -/
theorem invalid_input_behavior :
    (∀ image : Image, numPixels image = 0 →
      threshold image = Except.error OtsuError.invalidInput) ∧
    (∀ image : Image, numPixels image ≠ 0 → ∃ m, threshold image = Except.ok m) ∧
    (∀ (image : Image) (w nv nh : ℕ), Rectangular image w → 1 ≤ nv → 1 ≤ nh →
      ∃ m, segmented_threshold image nv nh = Except.ok m) ∧
    numPixels [[5], [7]] ≠ 0 ∧
    sliding_window_threshold [[5], [7]] 1 1 3 1 = Except.error OtsuError.invalidInput :=
  ⟨fun image he => threshold_empty image he,
   fun image hne => ⟨_, threshold_ok image hne⟩,
   fun image w nv nh hrect hnv hnh => segmented_threshold_ok image w hrect nv nh hnv hnh,
   by decide,
   by rfl⟩

/-! ## C7: one segment in each direction reproduces the global threshold -/

theorem writeRow_full (r : List ℕ) (nc : ℕ) (L : ℤ) (hnc : r.length ≤ nc) :
    List.mapIdx (fun j x =>
        if 0 ≤ j ∧ j < 0 + nc then (r.map (fun _ => L)).getD (j - 0) x else x)
      (r.map (fun _ => (0 : ℤ))) =
    r.map (fun _ => L) := by
  apply List.ext_getElem
  · simp only [List.length_mapIdx, List.length_map]
  · intro j g1 g2
    simp only [List.length_mapIdx, List.length_map] at g1 g2
    simp only [List.getElem_mapIdx, List.getElem_map]
    rw [if_pos ⟨Nat.zero_le j, (by omega : j < 0 + nc)⟩, Nat.sub_zero]
    rw [List.getD_eq_getElem _ _
      (show j < (r.map (fun _ => L)).length by rw [List.length_map]; exact g1)]
    simp only [List.getElem_map]

theorem writeBlock_full (image : Image) (w : ℕ) (hrect : Rectangular image w)
    (nr nc : ℕ) (hnr : image.length ≤ nr) (hnc : w ≤ nc) (L : ℤ) :
    writeBlock (zerosLikeInt image) 0 0 nr nc (fullLike image L) = fullLike image L := by
  unfold writeBlock zerosLikeInt fullLike
  apply List.ext_getElem
  · simp only [List.length_mapIdx, List.length_map]
  · intro i h1 h2
    simp only [List.length_mapIdx, List.length_map] at h1 h2
    simp only [List.getElem_mapIdx, List.getElem_map]
    rw [if_pos ⟨Nat.zero_le i, (by omega : i < 0 + nr)⟩, Nat.sub_zero]
    have hrl : image[i].length = w := hrect image[i] (List.getElem_mem h1)
    rw [List.getD_eq_getElem _ _
      (show i < (image.map (fun row => row.map (fun _ => L))).length by
        rw [List.length_map]; exact h1)]
    simp only [List.getElem_map]
    exact writeRow_full image[i] nc L (by omega)

/-- C7: on any non-empty well-formed image, segmenting with one vertical and
one horizontal segment produces exactly the mask of the global threshold. -/
theorem segmented_one_one (image : Image) (w : ℕ) (hrect : Rectangular image w)
    (hne : numPixels image ≠ 0) :
    segmented_threshold image 1 1 = threshold image := by
  have himg : image ≠ [] := by
    intro h
    rw [h] at hne
    exact hne rfl
  have hH : 0 < image.length := List.length_pos.mpr himg
  have hwc : imageWidth image = w := imageWidth_eq image w hrect himg
  have hwpos : 0 < w := width_pos image w hrect hne
  unfold segmented_threshold
  rw [if_neg (by omega : ¬(1 : ℕ) < 1)]
  rw [if_neg (by omega : ¬(1 : ℕ) < 1)]
  dsimp only
  have hsh : segmentHeightOf image.length 1 = image.length + 1 := by
    unfold segmentHeightOf
    rw [Nat.div_one]
  have hsl : segmentLengthOf (imageWidth image) 1 = w + 1 := by
    unfold segmentLengthOf
    rw [hwc, Nat.div_one]
  rw [hsh, hsl, hwc]
  rw [pythonRange_single image.length (image.length + 1) hH (by omega),
    pythonRange_single w (w + 1) hwpos (by omega)]
  simp only [List.foldlM_cons, List.foldlM_nil]
  rw [slice2d_all image w hrect (image.length + 1) (w + 1) (by omega) (by omega)]
  rw [threshold_ok image hne]
  show Except.ok (writeBlock (zerosLikeInt image) 0 0 (image.length + 1) (w + 1)
      (fullLike image (selectLevel (imageProbs image)))) =
    Except.ok (fullLike image (selectLevel (imageProbs image)))
  rw [writeBlock_full image w hrect (image.length + 1) (w + 1) (by omega) (by omega)]

theorem segmented_one_one_witness :
    Rectangular [[3, 7]] 2 ∧ numPixels [[3, 7]] ≠ 0 ∧
      segmented_threshold [[3, 7]] 1 1 = threshold [[3, 7]] :=
  ⟨by decide, by decide, segmented_one_one [[3, 7]] 2 (by decide) (by decide)⟩

/-! ## C8: a full-image window with large strides evaluates one window -/

theorem matrixMean_fullLike (image : Image) (hne : numPixels image ≠ 0) (L : ℤ) :
    matrixMean (fullLike image L) = (L : ℚ) := by
  unfold matrixMean fullLike
  have hfl : (image.map (fun row => row.map (fun _ => L))).flatten =
      (pixels image).map (fun _ => L) := by
    rw [pixels, List.map_flatten]
  rw [hfl, List.map_map]
  show ((pixels image).map (fun _ => (L : ℚ))).sum /
      ((((pixels image).map (fun _ => L)).length : ℕ) : ℚ) = (L : ℚ)
  rw [List.map_const', List.map_const', List.sum_replicate, List.length_replicate,
    nsmul_eq_mul]
  have hn : (((pixels image).length : ℕ) : ℚ) ≠ 0 := Nat.cast_ne_zero.mpr hne
  field_simp

theorem addRow_full (r : List ℕ) (nc : ℕ) (q : ℚ) (hnc : r.length ≤ nc) :
    List.mapIdx (fun j x => if 0 ≤ j ∧ j < 0 + nc then x + q else x)
      (r.map (fun _ => (0 : ℚ))) = r.map (fun _ => q) := by
  apply List.ext_getElem
  · simp only [List.length_mapIdx, List.length_map]
  · intro j g1 g2
    simp only [List.length_mapIdx, List.length_map] at g1 g2
    simp only [List.getElem_mapIdx, List.getElem_map]
    rw [if_pos ⟨Nat.zero_le j, (by omega : j < 0 + nc)⟩]
    exact zero_add q

theorem addScalarRegion_full (image : Image) (w : ℕ) (hrect : Rectangular image w)
    (nr nc : ℕ) (hnr : image.length ≤ nr) (hnc : w ≤ nc) (q : ℚ) :
    addScalarRegion (zerosLikeRat image) 0 0 nr nc q =
      image.map (fun row => row.map (fun _ => q)) := by
  unfold addScalarRegion zerosLikeRat
  apply List.ext_getElem
  · simp only [List.length_mapIdx, List.length_map]
  · intro i h1 h2
    simp only [List.length_mapIdx, List.length_map] at h1 h2
    simp only [List.getElem_mapIdx, List.getElem_map]
    rw [if_pos ⟨Nat.zero_le i, (by omega : i < 0 + nr)⟩]
    exact addRow_full image[i] nc q
      (by rw [hrect image[i] (List.getElem_mem h1)]; omega)

theorem incrementRow_full (r : List ℕ) (nc : ℕ) (hnc : r.length ≤ nc) :
    List.mapIdx (fun j x => if 0 ≤ j ∧ j < 0 + nc then (x + 1) % 256 else x)
      (r.map (fun _ => (0 : ℕ))) = r.map (fun _ => (1 : ℕ)) := by
  apply List.ext_getElem
  · simp only [List.length_mapIdx, List.length_map]
  · intro j g1 g2
    simp only [List.length_mapIdx, List.length_map] at g1 g2
    simp only [List.getElem_mapIdx, List.getElem_map]
    rw [if_pos ⟨Nat.zero_le j, (by omega : j < 0 + nc)⟩]

theorem incrementRegion_full (image : Image) (w : ℕ) (hrect : Rectangular image w)
    (nr nc : ℕ) (hnr : image.length ≤ nr) (hnc : w ≤ nc) :
    incrementRegion (zerosLikeNat image) 0 0 nr nc =
      image.map (fun row => row.map (fun _ => (1 : ℕ))) := by
  unfold incrementRegion zerosLikeNat
  apply List.ext_getElem
  · simp only [List.length_mapIdx, List.length_map]
  · intro i h1 h2
    simp only [List.length_mapIdx, List.length_map] at h1 h2
    simp only [List.getElem_mapIdx, List.getElem_map]
    rw [if_pos ⟨Nat.zero_le i, (by omega : i < 0 + nr)⟩]
    exact incrementRow_full image[i] nc
      (by rw [hrect image[i] (List.getElem_mem h1)]; omega)

theorem divideMasks_uniform (image : Image) (q : ℚ) :
    divideMasks (image.map (fun row => row.map (fun _ => q)))
      (image.map (fun row => row.map (fun _ => (1 : ℕ)))) =
      image.map (fun row => row.map (fun _ => q)) := by
  unfold divideMasks
  rw [List.zipWith_map_left, List.zipWith_map_right, List.zipWith_same]
  apply List.map_congr_left
  intro row _
  rw [List.zipWith_map_left, List.zipWith_map_right, List.zipWith_same]
  apply List.map_congr_left
  intro x _
  norm_num

theorem ratMask_fullLike (image : Image) (L : ℤ) :
    ratMask (fullLike image L) = image.map (fun row => row.map (fun _ => (L : ℚ))) := by
  unfold ratMask fullLike
  rw [List.map_map]
  apply List.map_congr_left
  intro row _
  show (row.map (fun _ => L)).map (fun (z : ℤ) => (z : ℚ)) =
    row.map (fun _ => (L : ℚ))
  rw [List.map_map]
  rfl

/-- C8: when the window is the whole image and each stride is at least the
corresponding image dimension, the offset lists are exactly [0] (one window is
evaluated) and the result is the global threshold mask broadcast uniformly,
converted to floating point. -/
theorem full_window_single_eval (image : Image) (vs hs : ℕ)
    (hrect : Rectangular image (imageWidth image)) (hne : numPixels image ≠ 0)
    (hvs : image.length ≤ vs) (hhs : imageWidth image ≤ hs) :
    pythonRange ((image.length : ℤ) - image.length + vs) vs = [0] ∧
    pythonRange ((imageWidth image : ℤ) - imageWidth image + hs) hs = [0] ∧
    sliding_window_threshold image image.length (imageWidth image) vs hs =
      Except.map ratMask (threshold image) := by
  have hH : 0 < image.length := length_pos_of_numPixels image hne
  have hwpos : 0 < imageWidth image := width_pos image (imageWidth image) hrect hne
  have hvs0 : 0 < vs := by omega
  have hhs0 : 0 < hs := by omega
  have hstopv : ((image.length : ℤ) - image.length + vs) = ((vs : ℕ) : ℤ) := by
    ring
  have hstoph : ((imageWidth image : ℤ) - imageWidth image + hs) = ((hs : ℕ) : ℤ) := by
    ring
  have hrv : pythonRange ((image.length : ℤ) - image.length + vs) vs = [0] := by
    rw [hstopv]
    exact pythonRange_single vs vs hvs0 (le_refl vs)
  have hrh : pythonRange ((imageWidth image : ℤ) - imageWidth image + hs) hs = [0] := by
    rw [hstoph]
    exact pythonRange_single hs hs hhs0 (le_refl hs)
  refine ⟨hrv, hrh, ?_⟩
  unfold sliding_window_threshold
  rw [if_neg (by omega : ¬image.length < 1), if_neg (by omega : ¬imageWidth image < 1),
    if_neg (by omega : ¬vs < 1), if_neg (by omega : ¬hs < 1)]
  dsimp only
  rw [hrv, hrh]
  simp only [List.foldlM_cons, List.foldlM_nil]
  rw [slice2d_all image (imageWidth image) hrect image.length (imageWidth image)
    (le_refl _) (le_refl _)]
  rw [threshold_ok image hne]
  show Except.ok (divideMasks
      (addScalarRegion (zerosLikeRat image) 0 0 image.length (imageWidth image)
        (matrixMean (fullLike image (selectLevel (imageProbs image)))))
      (incrementRegion (zerosLikeNat image) 0 0 image.length (imageWidth image))) =
    Except.map ratMask (Except.ok (fullLike image (selectLevel (imageProbs image))))
  rw [matrixMean_fullLike image hne,
    addScalarRegion_full image (imageWidth image) hrect image.length (imageWidth image)
      (le_refl _) (le_refl _),
    incrementRegion_full image (imageWidth image) hrect image.length (imageWidth image)
      (le_refl _) (le_refl _),
    divideMasks_uniform image]
  show Except.ok (image.map (fun row => row.map
      (fun _ => ((selectLevel (imageProbs image) : ℤ) : ℚ)))) =
    Except.ok (ratMask (fullLike image (selectLevel (imageProbs image))))
  rw [ratMask_fullLike]

theorem full_window_single_eval_witness :
    Rectangular [[3, 7]] (imageWidth [[3, 7]]) ∧ numPixels [[3, 7]] ≠ 0 ∧
      ([[3, 7]] : Image).length ≤ 1 ∧ imageWidth [[3, 7]] ≤ 2 ∧
      (pythonRange ((([[3, 7]] : Image).length : ℤ) - ([[3, 7]] : Image).length + 1) 1 =
          [0] ∧
        pythonRange ((imageWidth [[3, 7]] : ℤ) - imageWidth [[3, 7]] + 2) 2 = [0] ∧
        sliding_window_threshold [[3, 7]] ([[3, 7]] : Image).length (imageWidth [[3, 7]])
            1 2 =
          Except.map ratMask (threshold [[3, 7]])) :=
  ⟨by decide, by decide, by decide, by decide,
    full_window_single_eval [[3, 7]] 1 2 (by decide) (by decide) (by decide) (by decide)⟩

/-! ## C10: window coverage and the contribution counts -/

theorem length_incrementRegion (cnt : List (List ℕ)) (v0 h0 nr nc : ℕ) :
    (incrementRegion cnt v0 h0 nr nc).length = cnt.length := by
  unfold incrementRegion
  rw [List.length_mapIdx]

theorem rowLength_incrementRegion (cnt : List (List ℕ)) (v0 h0 nr nc i : ℕ) :
    ((incrementRegion cnt v0 h0 nr nc).getD i []).length = (cnt.getD i []).length := by
  by_cases h : i < cnt.length
  · rw [List.getD_eq_getElem _ _ (show i < (incrementRegion cnt v0 h0 nr nc).length by
      rw [length_incrementRegion]; exact h), List.getD_eq_getElem _ _ h]
    unfold incrementRegion
    simp only [List.getElem_mapIdx]
    split
    · rw [List.length_mapIdx]
    · rfl
  · push_neg at h
    rw [List.getD_eq_default _ _ (by rw [length_incrementRegion]; exact h),
      List.getD_eq_default _ _ h]

theorem cellN_out_row (m : List (List ℕ)) (i j : ℕ) (h : m.length ≤ i) :
    cellN m i j = 0 := by
  unfold cellN
  rw [List.getD_eq_default _ _ h]
  rfl

theorem cellN_out_col (m : List (List ℕ)) (i j : ℕ) (h : (m.getD i []).length ≤ j) :
    cellN m i j = 0 := by
  unfold cellN
  rw [List.getD_eq_default _ _ h]

theorem cellN_incrementRegion (cnt : List (List ℕ)) (v0 h0 nr nc i j : ℕ)
    (hi : i < cnt.length) (hj : j < (cnt.getD i []).length) :
    cellN (incrementRegion cnt v0 h0 nr nc) i j =
      if v0 ≤ i ∧ i < v0 + nr ∧ h0 ≤ j ∧ j < h0 + nc then (cellN cnt i j + 1) % 256
      else cellN cnt i j := by
  have hj' : j < cnt[i].length := by rwa [List.getD_eq_getElem _ _ hi] at hj
  unfold cellN
  rw [List.getD_eq_getElem _ _ (show i < (incrementRegion cnt v0 h0 nr nc).length by
    rw [length_incrementRegion]; exact hi), List.getD_eq_getElem _ _ hi]
  unfold incrementRegion
  simp only [List.getElem_mapIdx]
  by_cases hrow : v0 ≤ i ∧ i < v0 + nr
  · rw [if_pos hrow]
    rw [List.getD_eq_getElem _ _ (show j <
      (List.mapIdx (fun j x => if h0 ≤ j ∧ j < h0 + nc then (x + 1) % 256 else x)
        cnt[i]).length by rw [List.length_mapIdx]; exact hj'),
      List.getD_eq_getElem _ _ hj']
    simp only [List.getElem_mapIdx]
    by_cases hcol : h0 ≤ j ∧ j < h0 + nc
    · rw [if_pos hcol, if_pos ⟨hrow.1, hrow.2, hcol.1, hcol.2⟩]
    · rw [if_neg hcol, if_neg (by tauto)]
  · rw [if_neg hrow, if_neg (by tauto)]

theorem length_foldl_inner (hOffs : List ℕ) (v0 nr nc : ℕ) :
    ∀ cnt : List (List ℕ),
      (hOffs.foldl (fun cnt h0 => incrementRegion cnt v0 h0 nr nc) cnt).length = cnt.length := by
  induction hOffs with
  | nil => intro cnt; rfl
  | cons a rest ih =>
    intro cnt
    rw [List.foldl_cons, ih, length_incrementRegion]

theorem rowLength_foldl_inner (hOffs : List ℕ) (v0 nr nc i : ℕ) :
    ∀ cnt : List (List ℕ),
      ((hOffs.foldl (fun cnt h0 => incrementRegion cnt v0 h0 nr nc) cnt).getD i []).length =
        (cnt.getD i []).length := by
  induction hOffs with
  | nil => intro cnt; rfl
  | cons a rest ih =>
    intro cnt
    rw [List.foldl_cons, ih, rowLength_incrementRegion]

theorem length_foldl_outer (vOffs hOffs : List ℕ) (nr nc : ℕ) :
    ∀ cnt : List (List ℕ),
      (vOffs.foldl (fun cnt v0 =>
        hOffs.foldl (fun cnt h0 => incrementRegion cnt v0 h0 nr nc) cnt) cnt).length =
        cnt.length := by
  induction vOffs with
  | nil => intro cnt; rfl
  | cons a rest ih =>
    intro cnt
    rw [List.foldl_cons, ih, length_foldl_inner]

theorem rowLength_foldl_outer (vOffs hOffs : List ℕ) (nr nc i : ℕ) :
    ∀ cnt : List (List ℕ),
      ((vOffs.foldl (fun cnt v0 =>
        hOffs.foldl (fun cnt h0 => incrementRegion cnt v0 h0 nr nc) cnt) cnt).getD i []).length =
        (cnt.getD i []).length := by
  induction vOffs with
  | nil => intro cnt; rfl
  | cons a rest ih =>
    intro cnt
    rw [List.foldl_cons, ih, rowLength_foldl_inner]

/-- The cell of the count array after one inner (horizontal) pass: the number
of covering horizontal offsets is added, reduced mod 2^8 by the array's uint8
dtype. -/
theorem cellN_foldl_inner_mod (v0 nr nc i j : ℕ) (hOffs : List ℕ) :
    ∀ cnt : List (List ℕ), i < cnt.length → j < (cnt.getD i []).length →
      cellN cnt i j < 256 →
      cellN (hOffs.foldl (fun cnt h0 => incrementRegion cnt v0 h0 nr nc) cnt) i j =
        (cellN cnt i j + (if v0 ≤ i ∧ i < v0 + nr then
          hOffs.countP (fun h0 => decide (h0 ≤ j ∧ j < h0 + nc)) else 0)) % 256 := by
  induction hOffs with
  | nil =>
    intro cnt hi hj hlt
    rw [List.foldl_nil, List.countP_nil]
    split
    · rw [Nat.add_zero, Nat.mod_eq_of_lt hlt]
    · rw [Nat.add_zero, Nat.mod_eq_of_lt hlt]
  | cons a rest ih =>
    intro cnt hi hj hlt
    rw [List.foldl_cons, List.countP_cons]
    simp only [decide_eq_true_eq]
    have hi' : i < (incrementRegion cnt v0 a nr nc).length := by
      rw [length_incrementRegion]
      exact hi
    have hj' : j < ((incrementRegion cnt v0 a nr nc).getD i []).length := by
      rw [rowLength_incrementRegion]
      exact hj
    have hstep := cellN_incrementRegion cnt v0 a nr nc i j hi hj
    have hlt' : cellN (incrementRegion cnt v0 a nr nc) i j < 256 := by
      rw [hstep]
      split
      · exact Nat.mod_lt _ (by omega)
      · exact hlt
    rw [ih (incrementRegion cnt v0 a nr nc) hi' hj' hlt', hstep]
    by_cases hrow : v0 ≤ i ∧ i < v0 + nr
    · rw [if_pos hrow, if_pos hrow]
      by_cases hcol : a ≤ j ∧ j < a + nc
      · rw [if_pos ⟨hrow.1, hrow.2, hcol.1, hcol.2⟩, if_pos hcol, Nat.mod_add_mod]
        congr 1
        omega
      · rw [if_neg (by tauto), if_neg hcol]
        omega
    · rw [if_neg (by tauto), if_neg hrow, if_neg hrow]

/-- The cell of the count array after the whole traversal: the number of
covering offset pairs (vertical count times horizontal count), reduced mod 2^8
by the array's uint8 dtype. -/
theorem cellN_foldl_outer_mod (nr nc i j : ℕ) (hOffs vOffs : List ℕ) :
    ∀ cnt : List (List ℕ), i < cnt.length → j < (cnt.getD i []).length →
      cellN cnt i j < 256 →
      cellN (vOffs.foldl (fun cnt v0 =>
        hOffs.foldl (fun cnt h0 => incrementRegion cnt v0 h0 nr nc) cnt) cnt) i j =
        (cellN cnt i j +
          vOffs.countP (fun v0 => decide (v0 ≤ i ∧ i < v0 + nr)) *
            hOffs.countP (fun h0 => decide (h0 ≤ j ∧ j < h0 + nc))) % 256 := by
  induction vOffs with
  | nil =>
    intro cnt hi hj hlt
    rw [List.foldl_nil, List.countP_nil, Nat.zero_mul, Nat.add_zero,
      Nat.mod_eq_of_lt hlt]
  | cons a rest ih =>
    intro cnt hi hj hlt
    rw [List.foldl_cons, List.countP_cons]
    simp only [decide_eq_true_eq]
    have hinner := cellN_foldl_inner_mod a nr nc i j hOffs cnt hi hj hlt
    have hi1 : i < (hOffs.foldl (fun cnt h0 => incrementRegion cnt a h0 nr nc)
        cnt).length := by
      rw [length_foldl_inner]
      exact hi
    have hj1 : j < ((hOffs.foldl (fun cnt h0 => incrementRegion cnt a h0 nr nc)
        cnt).getD i []).length := by
      rw [rowLength_foldl_inner]
      exact hj
    have hlt1 : cellN (hOffs.foldl (fun cnt h0 => incrementRegion cnt a h0 nr nc)
        cnt) i j < 256 := by
      rw [hinner]
      exact Nat.mod_lt _ (by omega)
    rw [ih _ hi1 hj1 hlt1, hinner, Nat.mod_add_mod]
    by_cases hrow : a ≤ i ∧ i < a + nr
    · rw [if_pos hrow, if_pos hrow]
      congr 1
      have hexp : (rest.countP (fun v0 => decide (v0 ≤ i ∧ i < v0 + nr)) + 1) *
          hOffs.countP (fun h0 => decide (h0 ≤ j ∧ j < h0 + nc)) =
          rest.countP (fun v0 => decide (v0 ≤ i ∧ i < v0 + nr)) *
            hOffs.countP (fun h0 => decide (h0 ≤ j ∧ j < h0 + nc)) +
            hOffs.countP (fun h0 => decide (h0 ≤ j ∧ j < h0 + nc)) := by
        ring
      omega
    · rw [if_neg hrow, if_neg hrow]
      simp only [Nat.add_zero]

theorem exists_covering_offset (H wh vs i : ℕ) (h1 : 1 ≤ vs) (h2 : vs ≤ wh)
    (h3 : wh ≤ H) (hi : i < H) :
    ∃ o ∈ pythonRange ((H : ℤ) - wh + vs) vs, o ≤ i ∧ i < o + wh := by
  have hcast : ((H : ℤ) - wh + vs) = ((H - wh + vs : ℕ) : ℤ) := by omega
  rw [hcast]
  have hd1 := Nat.div_add_mod i vs
  have hm1 : i % vs < vs := Nat.mod_lt i (by omega)
  have hd2 := Nat.div_add_mod (H - wh + vs - 1) vs
  have hm2 : (H - wh + vs - 1) % vs < vs := Nat.mod_lt _ (by omega)
  rcases le_or_lt (i / vs) ((H - wh + vs - 1) / vs) with hle | hgt
  · refine ⟨i / vs * vs, ?_, ?_, ?_⟩
    · refine (mem_pythonRange_nat (H - wh + vs) vs (by omega) _).mpr ⟨i / vs, rfl, ?_⟩
      have hmul : i / vs * vs ≤ (H - wh + vs - 1) / vs * vs :=
        Nat.mul_le_mul_right vs hle
      have hc1 : i / vs * vs = vs * (i / vs) := Nat.mul_comm _ _
      have hc2 : (H - wh + vs - 1) / vs * vs = vs * ((H - wh + vs - 1) / vs) :=
        Nat.mul_comm _ _
      omega
    · have hc1 : i / vs * vs = vs * (i / vs) := Nat.mul_comm _ _
      omega
    · have hc1 : i / vs * vs = vs * (i / vs) := Nat.mul_comm _ _
      omega
  · refine ⟨(H - wh + vs - 1) / vs * vs, ?_, ?_, ?_⟩
    · refine (mem_pythonRange_nat (H - wh + vs) vs (by omega) _).mpr
        ⟨(H - wh + vs - 1) / vs, rfl, ?_⟩
      have hc2 : (H - wh + vs - 1) / vs * vs = vs * ((H - wh + vs - 1) / vs) :=
        Nat.mul_comm _ _
      omega
    · have hmul : ((H - wh + vs - 1) / vs + 1) * vs ≤ i / vs * vs :=
        Nat.mul_le_mul_right vs hgt
      have hc1 : i / vs * vs = vs * (i / vs) := Nat.mul_comm _ _
      have hexp : ((H - wh + vs - 1) / vs + 1) * vs =
          (H - wh + vs - 1) / vs * vs + vs := by ring
      omega
    · have hc2 : (H - wh + vs - 1) / vs * vs = vs * ((H - wh + vs - 1) / vs) :=
        Nat.mul_comm _ _
      omega

/-- C10: with stride at most the window size and window at most the image in
both directions, every cell of the contribution-count array of
`sliding_window_threshold` is strictly positive (the final division never
divides by zero), while outside that condition a cell can end at zero count
(image 3x1, window 1x1, vertical stride 2: the middle pixel is never covered). -/
theorem rowLength_zerosLikeNat (image : Image) (i : ℕ) :
    ((zerosLikeNat image).getD i []).length = (image.getD i []).length := by
  unfold zerosLikeNat
  by_cases hi : i < image.length
  · rw [List.getD_eq_getElem _ _ (by rw [List.length_map]; exact hi),
      List.getD_eq_getElem _ _ hi]
    simp only [List.getElem_map, List.length_map]
  · rw [List.getD_eq_default _ _ (by rw [List.length_map]; omega),
      List.getD_eq_default _ _ (by omega)]

theorem zerosLikeNat_getD (image : Image) (i : ℕ) :
    (zerosLikeNat image).getD i [] = (image.getD i []).map (fun _ => 0) := by
  unfold zerosLikeNat
  by_cases hi : i < image.length
  · rw [List.getD_eq_getElem _ _ (by rw [List.length_map]; exact hi),
      List.getD_eq_getElem _ _ hi]
    simp only [List.getElem_map]
  · rw [List.getD_eq_default _ _ (by rw [List.length_map]; omega),
      List.getD_eq_default _ _ (by omega)]
    rfl

theorem cellN_zerosLikeNat (image : Image) (i j : ℕ) :
    cellN (zerosLikeNat image) i j = 0 := by
  unfold cellN
  rw [zerosLikeNat_getD]
  by_cases hj : j < (image.getD i []).length
  · rw [List.getD_eq_getElem _ _ (by rw [List.length_map]; exact hj)]
    simp only [List.getElem_map]
  · rw [List.getD_eq_default _ _ (by rw [List.length_map]; omega)]

/-- Each cell of num_repetitions ends at the number of windows covering that
pixel, reduced mod 2^8: the count array inherits the image's uint8 dtype and
its += 1 wraps around. -/
theorem cellN_countMatrix_mod (image : Image) (wh wl vs hs i j : ℕ)
    (hi : i < image.length) (hj : j < (image.getD i []).length) :
    cellN (countMatrix image wh wl vs hs) i j =
      ((pythonRange ((image.length : ℤ) - wh + vs) vs).countP
          (fun v0 => decide (v0 ≤ i ∧ i < v0 + wh)) *
        (pythonRange ((imageWidth image : ℤ) - wl + hs) hs).countP
          (fun h0 => decide (h0 ≤ j ∧ j < h0 + wl))) % 256 := by
  unfold countMatrix
  have hi0 : i < (zerosLikeNat image).length := by
    unfold zerosLikeNat
    rw [List.length_map]
    exact hi
  have hj0 : j < ((zerosLikeNat image).getD i []).length := by
    rw [rowLength_zerosLikeNat]
    exact hj
  rw [cellN_foldl_outer_mod wh wl i j
      (pythonRange ((imageWidth image : ℤ) - wl + hs) hs)
      (pythonRange ((image.length : ℤ) - wh + vs) vs)
      (zerosLikeNat image) hi0 hj0 (by rw [cellN_zerosLikeNat]; omega),
    cellN_zerosLikeNat, Nat.zero_add]

/-- C10 amended: with stride at most the window and window at most the image
in both directions, every pixel is covered by at least one window (the true
number of covering offset pairs is positive), but the stored contribution
count is that number reduced mod 2^8 (num_repetitions inherits the image's
uint8 dtype), so a cell of the count array is strictly positive — and the
final division's divisor nonzero — exactly when the number of covering
windows is not a multiple of 256; in particular it is positive whenever fewer
than 256 windows overlap the pixel. Outside the stride/window condition a
cell can be zero for lack of coverage (image 3x1, window 1x1, vertical
stride 2: the middle pixel is never covered). -/
theorem window_coverage_amended (image : Image) (w wh wl vs hs : ℕ)
    (hrect : Rectangular image w) (hvs1 : 1 ≤ vs) (hvs2 : vs ≤ wh)
    (hwh : wh ≤ image.length) (hhs1 : 1 ≤ hs) (hhs2 : hs ≤ wl) (hwl : wl ≤ w)
    (i j : ℕ) (hi : i < image.length) (hj : j < w) :
    0 < (pythonRange ((image.length : ℤ) - wh + vs) vs).countP
          (fun v0 => decide (v0 ≤ i ∧ i < v0 + wh)) *
        (pythonRange ((imageWidth image : ℤ) - wl + hs) hs).countP
          (fun h0 => decide (h0 ≤ j ∧ j < h0 + wl)) ∧
    cellN (countMatrix image wh wl vs hs) i j =
      ((pythonRange ((image.length : ℤ) - wh + vs) vs).countP
          (fun v0 => decide (v0 ≤ i ∧ i < v0 + wh)) *
        (pythonRange ((imageWidth image : ℤ) - wl + hs) hs).countP
          (fun h0 => decide (h0 ≤ j ∧ j < h0 + wl))) % 256 ∧
    ((pythonRange ((image.length : ℤ) - wh + vs) vs).countP
          (fun v0 => decide (v0 ≤ i ∧ i < v0 + wh)) *
        (pythonRange ((imageWidth image : ℤ) - wl + hs) hs).countP
          (fun h0 => decide (h0 ≤ j ∧ j < h0 + wl)) < 256 →
      0 < cellN (countMatrix image wh wl vs hs) i j) ∧
    cellN (countMatrix [[1], [2], [3]] 1 1 2 1) 1 0 = 0 := by
  have himgne : image ≠ [] := by
    intro h
    rw [h] at hi
    simp at hi
  have hwc : imageWidth image = w := imageWidth_eq image w hrect himgne
  rw [hwc]
  have hjrow : j < (image.getD i []).length := by
    rw [List.getD_eq_getElem _ _ hi, hrect _ (List.getElem_mem hi)]
    exact hj
  have hvpos : 0 < (pythonRange ((image.length : ℤ) - wh + vs) vs).countP
      (fun v0 => decide (v0 ≤ i ∧ i < v0 + wh)) := by
    obtain ⟨o, hmem, h1, h2⟩ :=
      exists_covering_offset image.length wh vs i hvs1 hvs2 hwh hi
    exact List.countP_pos_iff.mpr ⟨o, hmem, decide_eq_true ⟨h1, h2⟩⟩
  have hhpos : 0 < (pythonRange ((w : ℤ) - wl + hs) hs).countP
      (fun h0 => decide (h0 ≤ j ∧ j < h0 + wl)) := by
    obtain ⟨o, hmem, h1, h2⟩ := exists_covering_offset w wl hs j hhs1 hhs2 hwl hj
    exact List.countP_pos_iff.mpr ⟨o, hmem, decide_eq_true ⟨h1, h2⟩⟩
  have hformula := cellN_countMatrix_mod image wh wl vs hs i j hi hjrow
  rw [hwc] at hformula
  refine ⟨Nat.mul_pos hvpos hhpos, hformula, ?_, by decide⟩
  intro hlt
  rw [hformula, Nat.mod_eq_of_lt hlt]
  exact Nat.mul_pos hvpos hhpos

theorem window_coverage_amended_witness :
    0 < cellN (countMatrix [[1], [2]] 1 1 1 1) 0 0 :=
  (window_coverage_amended [[1], [2]] 1 1 1 1 1 (by decide) (by decide) (by decide)
    (by decide) (by decide) (by decide) (by decide) 0 0 (by decide)
    (by decide)).2.2.1 (by decide)

set_option maxRecDepth 8000 in
/-- C10 counterexample: under the claim's own condition (strides 1 at most
the window sizes 256 and 1, windows at most the image dimensions 511 and 1),
the pixel at row 255 of a 511x1 image is covered by exactly 256 windows, so
its uint8 contribution count wraps around to 0 and the final elementwise
division divides by zero there. -/
theorem window_count_wrap_cex :
    (1 : ℕ) ≤ 1 ∧ (1 : ℕ) ≤ 256 ∧
      256 ≤ (List.replicate 511 ([0] : List ℕ)).length ∧
      (1 : ℕ) ≤ 1 ∧ (1 : ℕ) ≤ 1 ∧
      1 ≤ imageWidth (List.replicate 511 ([0] : List ℕ)) ∧
      255 < (List.replicate 511 ([0] : List ℕ)).length ∧ (0 : ℕ) < 1 ∧
      cellN (countMatrix (List.replicate 511 ([0] : List ℕ)) 256 1 1 1) 255 0 = 0 := by
  have hrect : Rectangular (List.replicate 511 ([0] : List ℕ)) 1 := by
    intro row hr
    rw [List.eq_of_mem_replicate hr]
    rfl
  have hi : (255 : ℕ) < (List.replicate 511 ([0] : List ℕ)).length := by
    rw [List.length_replicate]
    omega
  have hjrow : (0 : ℕ) < ((List.replicate 511 ([0] : List ℕ)).getD 255 []).length := by
    rw [List.getD_eq_getElem _ _ hi, hrect _ (List.getElem_mem hi)]
    omega
  refine ⟨le_refl 1, by omega, by rw [List.length_replicate]; omega, le_refl 1, le_refl 1,
    ?_, hi, Nat.zero_lt_one, ?_⟩
  · decide
  · rw [cellN_countMatrix_mod _ 256 1 1 1 255 0 hi hjrow]
    decide

/-! ## C4: a two-value image — sums over singly-supported range maps -/

theorem sum_map_range_succ (g : ℕ → ℚ) (n : ℕ) :
    ((List.range (n + 1)).map g).sum = ((List.range n).map g).sum + g n := by
  rw [List.range_succ, List.map_append, List.sum_append]
  simp

theorem enumFromSum_append (f : ℕ → ℚ → ℚ) (l1 l2 : List ℚ) :
    ∀ k, enumFromSum f k (l1 ++ l2) =
      enumFromSum f k l1 + enumFromSum f (k + l1.length) l2 := by
  induction l1 with
  | nil =>
    intro k
    simp [enumFromSum]
  | cons p rest ih =>
    intro k
    rw [List.cons_append]
    show f k p + enumFromSum f (k + 1) (rest ++ l2) =
      f k p + enumFromSum f (k + 1) rest + enumFromSum f (k + (p :: rest).length) l2
    rw [ih (k + 1), List.length_cons]
    rw [show k + 1 + rest.length = k + (rest.length + 1) by omega]
    ring

theorem enumSum_range_succ (f : ℕ → ℚ → ℚ) (g : ℕ → ℚ) (n : ℕ) :
    enumSum f ((List.range (n + 1)).map g) =
      enumSum f ((List.range n).map g) + f n (g n) := by
  unfold enumSum
  rw [List.range_succ, List.map_append, enumFromSum_append]
  simp [enumFromSum, List.length_map, List.length_range]

theorem sum_zero_support (n : ℕ) (g : ℕ → ℚ) (hz : ∀ u, u < n → g u = 0) :
    ((List.range n).map g).sum = 0 := by
  apply List.sum_eq_zero
  intro x hx
  obtain ⟨u, hu, rfl⟩ := List.mem_map.mp hx
  exact hz u (List.mem_range.mp hu)

theorem enumSum_zero_support (f : ℕ → ℚ → ℚ) (g : ℕ → ℚ) (n : ℕ)
    (hz : ∀ u, u < n → g u = 0) (hf : ∀ i, f i 0 = 0) :
    enumSum f ((List.range n).map g) = 0 := by
  induction n with
  | zero => rfl
  | succ n ih =>
    rw [enumSum_range_succ, ih (fun u hu => hz u (by omega)), hz n (by omega), hf n]
    ring

theorem sum_single_support (g : ℕ → ℚ) : ∀ n v : ℕ, v < n →
    (∀ u, u < n → u ≠ v → g u = 0) → ((List.range n).map g).sum = g v := by
  intro n
  induction n with
  | zero =>
    intro v hv _
    omega
  | succ n ih =>
    intro v hv hz
    rw [sum_map_range_succ]
    rcases Nat.lt_succ_iff_lt_or_eq.mp hv with h | h
    · rw [ih v h (fun u hu hne => hz u (by omega) hne), hz n (by omega) (by omega)]
      ring
    · rw [sum_zero_support n g (fun u hu => hz u (by omega) (by omega)), h]
      ring

theorem enumSum_single_support (f : ℕ → ℚ → ℚ) (g : ℕ → ℚ) (hf : ∀ i, f i 0 = 0) :
    ∀ n v : ℕ, v < n → (∀ u, u < n → u ≠ v → g u = 0) →
      enumSum f ((List.range n).map g) = f v (g v) := by
  intro n
  induction n with
  | zero =>
    intro v hv _
    omega
  | succ n ih =>
    intro v hv hz
    rw [enumSum_range_succ]
    rcases Nat.lt_succ_iff_lt_or_eq.mp hv with h | h
    · rw [ih v h (fun u hu hne => hz u (by omega) hne), hz n (by omega) (by omega), hf n]
      ring
    · rw [enumSum_zero_support f g n (fun u hu => hz u (by omega) (by omega)) hf, h]
      ring

theorem range_drop (n k : ℕ) :
    (List.range n).drop k = (List.range (n - k)).map (fun j => k + j) := by
  rcases le_or_lt k n with h | h
  · have hdl := List.drop_left (List.range k) ((List.range (n - k)).map (fun x => k + x))
    rw [List.length_range] at hdl
    conv_lhs => rw [show n = k + (n - k) from by omega, List.range_add]
    exact hdl
  · rw [List.drop_eq_nil_of_le (by rw [List.length_range]; omega),
      show n - k = 0 by omega]
    rfl

/-! ## C4: the two-value image selects the lower value, not a level between -/

theorem twoVal_probs_eq : imageProbs [[10, 200]] = (List.range 256).map twoValProb := by
  unfold imageProbs grayLevelProbabilities histogramOf twoValProb
  rw [List.map_map]
  rfl

theorem twoValProb_ten : twoValProb 10 = 1 / 2 := by
  unfold twoValProb
  rw [show (pixels [[10, 200]]).countP (fun p => p == 10) = 1 from by decide,
    show numPixels [[10, 200]] = 2 from by decide]
  norm_num

theorem twoValProb_two_hundred : twoValProb 200 = 1 / 2 := by
  unfold twoValProb
  rw [show (pixels [[10, 200]]).countP (fun p => p == 200) = 1 from by decide,
    show numPixels [[10, 200]] = 2 from by decide]
  norm_num

theorem twoValProb_zero (u : ℕ) (h1 : u ≠ 10) (h2 : u ≠ 200) : twoValProb u = 0 := by
  unfold twoValProb
  have hc : (pixels [[10, 200]]).countP (fun p => p == u) = 0 := by
    rw [List.countP_eq_zero]
    intro a ha
    have hpix : pixels [[10, 200]] = [10, 200] := rfl
    rw [hpix] at ha
    rcases List.mem_cons.mp ha with rfl | ha2
    · simp only [beq_iff_eq]
      omega
    · rcases List.mem_cons.mp ha2 with rfl | ha3
      · simp only [beq_iff_eq]
        omega
      · simp at ha3
  rw [hc]
  norm_num

/-- At every candidate between the two pixel values the split is valid and the
intraclass variance computed by the scan is exactly zero. -/
theorem two_value_candidate (t : ℕ) (h1 : 10 ≤ t) (h2 : t ≤ 199) :
    ¬skippedCandidate (imageProbs [[10, 200]]) t ∧
      intraclassVariance (imageProbs [[10, 200]]) t = 0 := by
  have htake : (imageProbs [[10, 200]]).take (t + 1) =
      (List.range (t + 1)).map twoValProb := by
    rw [twoVal_probs_eq, ← List.map_take, List.take_range,
      show (t + 1) ⊓ 256 = t + 1 by omega]
  have hdrop : (imageProbs [[10, 200]]).drop (t + 1) =
      (List.range (255 - t)).map (fun j => twoValProb (t + 1 + j)) := by
    rw [twoVal_probs_eq, ← List.map_drop, range_drop,
      show 256 - (t + 1) = 255 - t by omega, List.map_map]
    rfl
  have hzlow : ∀ u, u < t + 1 → u ≠ 10 → twoValProb u = 0 :=
    fun u hu hne => twoValProb_zero u hne (by omega)
  have hzup : ∀ u, u < 255 - t → u ≠ 199 - t → twoValProb (t + 1 + u) = 0 :=
    fun u hu hne => twoValProb_zero _ (by omega) (by omega)
  have hlowP : lowerGroupProbability (imageProbs [[10, 200]]) t = 1 / 2 := by
    unfold lowerGroupProbability
    rw [htake, sum_single_support twoValProb (t + 1) 10 (by omega) hzlow, twoValProb_ten]
  have hupP : upperGroupProbability (imageProbs [[10, 200]]) t = 1 / 2 := by
    unfold upperGroupProbability
    rw [hdrop, sum_single_support (fun j => twoValProb (t + 1 + j)) (255 - t) (199 - t)
        (by omega) hzup,
      show t + 1 + (199 - t) = 200 by omega, twoValProb_two_hundred]
  have hlowM : lowerGroupMean (imageProbs [[10, 200]]) t = 10 := by
    unfold lowerGroupMean
    rw [htake, hlowP,
      enumSum_single_support (fun g p => (g : ℚ) * p) twoValProb
        (fun i => mul_zero _) (t + 1) 10 (by omega) hzlow,
      twoValProb_ten]
    norm_num
  have hlowV : lowerGroupVariance (imageProbs [[10, 200]]) t = 0 := by
    unfold lowerGroupVariance
    rw [htake, hlowP]
    simp only [hlowM]
    rw [enumSum_single_support (fun g p => ((g : ℚ) - 10) ^ 2 * p) twoValProb
        (fun i => mul_zero _) (t + 1) 10 (by omega) hzlow,
      twoValProb_ten]
    norm_num
  have hupM : upperGroupMean (imageProbs [[10, 200]]) t = ((199 - t : ℕ) : ℚ) := by
    unfold upperGroupMean
    rw [hdrop, hupP,
      enumSum_single_support (fun g p => (g : ℚ) * p) (fun j => twoValProb (t + 1 + j))
        (fun i => mul_zero _) (255 - t) (199 - t) (by omega) hzup,
      show t + 1 + (199 - t) = 200 by omega, twoValProb_two_hundred]
    norm_num [mul_div_assoc]
  have hupV : upperGroupVariance (imageProbs [[10, 200]]) t = 0 := by
    unfold upperGroupVariance
    rw [hdrop, hupP]
    simp only [hupM]
    rw [enumSum_single_support
        (fun g p => ((g : ℚ) - ((199 - t : ℕ) : ℚ)) ^ 2 * p)
        (fun j => twoValProb (t + 1 + j)) (fun i => mul_zero _) (255 - t) (199 - t)
        (by omega) hzup,
      show t + 1 + (199 - t) = 200 by omega, twoValProb_two_hundred]
    norm_num
  refine ⟨?_, ?_⟩
  · unfold skippedCandidate
    rw [hlowP, hupP]
    norm_num
  · unfold intraclassVariance
    rw [hlowP, hupP, hlowV, hupV]
    norm_num

/-- When every valid candidate attains the same intraclass variance, the scan
returns the first valid candidate. -/
theorem selectLevel_first_of_const_J (probs : List ℚ) (t0 : ℕ)
    (h0len : t0 < probs.length) (h0 : ¬skippedCandidate probs t0)
    (hfirst : ∀ t, t < t0 → skippedCandidate probs t)
    (hJ : ∀ t, t < probs.length → ¬skippedCandidate probs t →
      intraclassVariance probs t = intraclassVariance probs t0) :
    selectLevel probs = (t0 : ℤ) := by
  rcases scanAcc_spec probs probs.length with ⟨_, h2⟩ |
    ⟨b, m, hacc, hb, hnsk, hm, hmin, hstrict⟩
  · exact absurd (h2 t0 h0len) h0
  · rw [selectLevel_eq_scanAcc, hacc]
    have hb0 : ¬b < t0 := fun hlt => hnsk (hfirst b hlt)
    have h0b : ¬t0 < b := by
      intro hlt
      have hs := hstrict t0 hlt h0
      rw [hm, hJ b hb hnsk] at hs
      exact lt_irrefl _ hs
    have hbe : b = t0 := by omega
    rw [hbe]

set_option maxRecDepth 8000 in
theorem two_value_selectLevel : selectLevel (imageProbs [[10, 200]]) = 10 := by
  have hlow : ∀ t, t < 10 → ((histogramOf [[10, 200]]).take (t + 1)).sum = 0 := by decide
  have hhigh : ∀ t, t < 256 → 200 ≤ t →
      ((histogramOf [[10, 200]]).drop (t + 1)).sum = 0 := by decide
  have hskip_low : ∀ t, t < 10 → skippedCandidate (imageProbs [[10, 200]]) t :=
    fun t ht => skippedCandidate_of_counts (histogramOf [[10, 200]])
      (numPixels [[10, 200]]) t (Or.inl (hlow t ht))
  have hskip_high : ∀ t, t < 256 → 200 ≤ t →
      skippedCandidate (imageProbs [[10, 200]]) t :=
    fun t ht h200 => skippedCandidate_of_counts (histogramOf [[10, 200]])
      (numPixels [[10, 200]]) t (Or.inr (hhigh t ht h200))
  rw [show (10 : ℤ) = ((10 : ℕ) : ℤ) by norm_num]
  apply selectLevel_first_of_const_J (imageProbs [[10, 200]]) 10
  · rw [length_imageProbs]
    omega
  · exact (two_value_candidate 10 (le_refl 10) (by omega)).1
  · exact hskip_low
  · intro t ht hnsk
    rcases lt_or_le t 10 with h | h
    · exact absurd (hskip_low t h) hnsk
    · rcases le_or_lt 200 t with h200 | h200
      · rw [length_imageProbs] at ht
        exact absurd (hskip_high t ht h200) hnsk
      · rw [(two_value_candidate t h (by omega)).2,
          (two_value_candidate 10 (le_refl 10) (by omega)).2]

/-- C4 counterexample: on the two-value image [[10, 200]] the selected
threshold is 10 itself — the lower of the two intensity values — not a level
strictly between them. -/
theorem two_value_strict_between_cex :
    selectLevel (imageProbs [[10, 200]]) = 10 ∧
      threshold [[10, 200]] = Except.ok [[10, 10]] ∧
      ¬(10 < selectLevel (imageProbs [[10, 200]]) ∧
        selectLevel (imageProbs [[10, 200]]) < 200) := by
  refine ⟨two_value_selectLevel, ?_, ?_⟩
  · rw [threshold_ok [[10, 200]] (by decide), two_value_selectLevel]
    rfl
  · rw [two_value_selectLevel]
    decide

/-- C4 amended: on the two-value image the selected threshold equals the lower
intensity value 10 (lower class = levels at most t), which still separates the
two populations exactly, and the spec's intraclass variance at the selected
threshold is zero. -/
theorem two_value_threshold_amended :
    selectLevel (imageProbs [[10, 200]]) = 10 ∧
      threshold [[10, 200]] = Except.ok [[10, 10]] ∧
      (∀ p ∈ pixels [[10, 200]], (p ≤ 10 ↔ p = 10) ∧ (10 < p ↔ p = 200)) ∧
      specIntraclassVariance (imageProbs [[10, 200]]) 10 = 0 := by
  refine ⟨two_value_selectLevel, ?_, by decide, ?_⟩
  · rw [threshold_ok [[10, 200]] (by decide), two_value_selectLevel]
    rfl
  · rw [specIntraclassVariance_eq (imageProbs [[10, 200]]) 10
      (two_value_candidate 10 (le_refl 10) (by omega)).1]
    exact (two_value_candidate 10 (le_refl 10) (by omega)).2

end Otsu
